import Mathlib

set_option autoImplicit false

/-!
# Verification of the mbed interrupt-driven character-device core

Shallow embedding of the three coupled subsystems of the repository:

* `CVCS` — the critical-section condition variable
  (`platform/ConditionVariableCS.cpp`), both the RTOS variant (intrusive
  circular doubly-linked wait list of `Waiter` nodes) and the bare-metal
  variant (a single `_notified` boolean polled in a WFE loop);
* `Serial` — the `UARTSerial` ring-buffered endpoint
  (`drivers/UARTSerial.cpp`): `read`, `write`, `poll`, `poll_with_wake`,
  `wake`, `hup`, and the two ISRs `rx_irq` / `tx_irq`;
* `MPoll` — the `poll` multiplexer (`platform/mbed_poll.cpp`).

Pointers are modelled as `Option Nat` (`none` = `NULL`) over an explicit
heap `Nat → Waiter`; machine integers as `Nat`; the UART peripheral as an
oracle (bytes offered / accepted); interleaved ISR activity during a
`wait` as an explicit environment list consumed one entry per wait.
-/

namespace CVCS

/-- RTOS-variant waiter node (`struct Waiter` in `ConditionVariableCS.cpp`):
thread id, `prev`/`next` links of the circular doubly-linked wait list
(`none` = `NULL`), and the `in_list` flag. -/
structure Waiter where
  tid : Nat
  prev : Option Nat
  next : Option Nat
  inList : Bool
deriving Repr, DecidableEq

/-- A freshly constructed node: `Waiter::Waiter()` sets
`prev = next = NULL`, `in_list = false`. -/
def Waiter.fresh (tid : Nat) : Waiter :=
  { tid := tid, prev := none, next := none, inList := false }

/-- State of one `ConditionVariableCS` (RTOS variant) together with the
memory holding the waiter nodes: `heap p` is the node at address `p`,
`waitList` is the `_wait_list` head pointer. -/
structure State where
  heap : Nat → Waiter
  waitList : Option Nat

/-- Write one node of the heap. -/
def State.store (s : State) (p : Nat) (w : Waiter) : State :=
  { s with heap := Function.update s.heap p w }

/-- `ConditionVariableCS::_add_wait_list(waiter)`, line for line:
if the list is empty the node is self-linked and becomes the head,
otherwise it is inserted after the last element (before the head);
finally `waiter->in_list = true`. -/
def addWaitList (s : State) (w : Nat) : State :=
  match s.waitList with
  | none =>
      -- _wait_list = waiter; waiter->next = waiter; waiter->prev = waiter
      let s := s.store w { s.heap w with next := some w, prev := some w }
      let s := { s with waitList := some w }
      s.store w { s.heap w with inList := true }
  | some first =>
      -- Waiter *last = _wait_list->prev
      match (s.heap first).prev with
      | none => s  -- unreachable for a well-formed list (would be a NULL deref)
      | some last =>
          -- waiter->next = first; waiter->prev = last
          let s := s.store w { s.heap w with next := some first, prev := some last }
          -- first->prev = waiter
          let s := s.store first { s.heap first with prev := some w }
          -- last->next = waiter
          let s := s.store last { s.heap last with next := some w }
          s.store w { s.heap w with inList := true }

/-- `ConditionVariableCS::_remove_wait_list(waiter)`, line for line:
`prev->next = waiter->next; next->prev = waiter->prev;
_wait_list = waiter->next; if (_wait_list == waiter) _wait_list = NULL;`
then the removed node's links are invalidated and `in_list` cleared.
The writes are sequenced exactly as in the source so that the aliased
cases (`prev == next`, `prev == waiter`) behave as the C code does. -/
def removeWaitList (s : State) (w : Nat) : State :=
  match (s.heap w).prev, (s.heap w).next with
  | some prev, some next =>
      -- prev->next = waiter->next
      let s := s.store prev { s.heap prev with next := (s.heap w).next }
      -- next->prev = waiter->prev
      let s := s.store next { s.heap next with prev := (s.heap w).prev }
      -- _wait_list = waiter->next
      let s := { s with waitList := (s.heap w).next }
      -- if (_wait_list == waiter) _wait_list = NULL
      let s := if s.waitList = some w then { s with waitList := none } else s
      -- waiter->next = NULL; waiter->prev = NULL; waiter->in_list = false
      s.store w { s.heap w with next := none, prev := none, inList := false }
  | _, _ => s  -- unreachable for a linked node (would be a NULL deref)

/-- Observable outcome of `ConditionVariableCS::notify_one` (RTOS
variant): either no waiter was present (no flag set), or the code
dereferenced a NULL `_wait_list` when issuing `osThreadFlagsSet`, or
`THREAD_FLAG_UNBLOCK` was set on exactly the returned thread id. -/
inductive NotifyOneResult where
  | noWaiter
  | nullDeref
  | flagSet (tid : Nat)
deriving Repr, DecidableEq

/-- `ConditionVariableCS::notify_one` (RTOS variant), line for line:
under the critical section, if `_wait_list != NULL` it calls
`_remove_wait_list(_wait_list)` and then executes
`osThreadFlagsSet(_wait_list->tid, THREAD_FLAG_UNBLOCK)` — reading the
member `_wait_list` *again*, after `_remove_wait_list` has already
advanced it to the next node (or to `NULL`). -/
def notifyOne (s : State) : State × NotifyOneResult :=
  match s.waitList with
  | none => (s, .noWaiter)
  | some w =>
      let s' := removeWaitList s w
      match s'.waitList with
      | none => (s', .nullDeref)
      | some x => (s', .flagSet ((s'.heap x).tid))

/-- `ConditionVariableCS::notify_all` (RTOS variant): the whole list is
detached at once (`_wait_list = NULL`), then every node on the detached
chain gets its links nulled, `in_list` cleared and its thread flag set.
The returned list is the set of thread ids flagged, in chain order,
computed with fuel (the chain length bound) since the C loop follows
`next` pointers of the detached chain. -/
def notifyAllLoop (s : State) : Option Nat → Nat → State × List Nat
  | none, _ => (s, [])
  | some _, 0 => (s, [])
  | some w, fuel + 1 =>
      let next := (s.heap w).next
      let s := s.store w { s.heap w with next := none, prev := none, inList := false }
      let tid := (s.heap w).tid
      let (s, rest) := notifyAllLoop s next fuel
      (s, tid :: rest)

/-- `wait_for`'s return path (RTOS variant, lines 100–105): re-enter the
critical section and, if `current_thread.in_list` is still set, call
`_remove_wait_list(&current_thread)`. -/
def waitForExit (s : State) (w : Nat) : State :=
  if (s.heap w).inList then removeWaitList s w else s

/-! ## Well-formedness of the wait list

`wfList s l` says the circular doubly-linked structure rooted at
`_wait_list` holds exactly the nodes of `l` in FIFO order (head first),
with consistent `prev`/`next` links and `in_list` true exactly on the
members of `l`. -/

/-- `linked s a b`: node `a`'s `next` points at `b` and `b`'s `prev`
points back at `a`. -/
def linked (s : State) (a b : Nat) : Prop :=
  (s.heap a).next = some b ∧ (s.heap b).prev = some a

instance (s : State) (a b : Nat) : Decidable (linked s a b) := by
  unfold linked; infer_instance

/-- The wait list of `s` is the circular doubly-linked list holding
exactly `l`, head first. -/
def wfList (s : State) (l : List Nat) : Prop :=
  l.Nodup ∧
  (∀ x, (s.heap x).inList = true ↔ x ∈ l) ∧
  match l with
  | [] => s.waitList = none
  | h :: t => s.waitList = some h ∧ List.Chain (linked s) h (t ++ [h])

/-! ## Concrete states for evaluating `notify_one` -/

/-- A wait list holding the single waiter at address 1, thread id 100,
self-linked as `_add_wait_list` builds it. -/
def oneWaiterState : State :=
  { heap := fun p =>
      if p = 1 then { tid := 100, prev := some 1, next := some 1, inList := true }
      else Waiter.fresh 0
    waitList := some 1 }

/-- A wait list holding two waiters: address 1 (thread 100, the head,
first to enter `wait`) and address 2 (thread 200), circularly linked. -/
def twoWaiterState : State :=
  { heap := fun p =>
      if p = 1 then { tid := 100, prev := some 2, next := some 2, inList := true }
      else if p = 2 then { tid := 200, prev := some 1, next := some 1, inList := true }
      else Waiter.fresh 0
    waitList := some 1 }

/-! ## RTOS `wait_for`: classification of the `osThreadFlagsWait` return

Lines 88–98 of `ConditionVariableCS.cpp` turn the return value of
`osThreadFlagsWait(THREAD_FLAG_UNBLOCK, osFlagsWaitAny, millisec)` into
the `timeout` result. -/

/-- Abstraction of the value `osThreadFlagsWait` can return: the timeout
error, the resource error (flag not set on a zero-timeout try), or a
successful flags value containing `THREAD_FLAG_UNBLOCK`. -/
inductive FlagsWaitRet where
  | timeoutErr
  | resourceErr
  | flags
deriving Repr, DecidableEq

/-- Lines 88–98: `ret == osFlagsErrorTimeout → timeout = true`;
`ret == osFlagsErrorResource && millisec == 0 → timeout = true`;
otherwise (asserting a successful flags value) `timeout = false`. -/
def timeoutDecision (millisec : Nat) (ret : FlagsWaitRet) : Bool :=
  match ret with
  | .timeoutErr => true
  | .resourceErr => millisec == 0
  | .flags => false

/-- Modelled from the spec: the CMSIS kernel call `osThreadFlagsWait`
(declared in `cmsis_os2.h`, not among the provided sources) with timeout
0 is a non-blocking try — it consumes and returns the flags if the
thread's `THREAD_FLAG_UNBLOCK` is already pending, and returns
`osFlagsErrorResource` otherwise; it never blocks and never reports the
timeout error. -/
def flagsWaitZero (pending : Bool) : FlagsWaitRet :=
  if pending then .flags else .resourceErr

end CVCS

namespace CVBM

/-- Bare-metal variant state of a `ConditionVariableCS`: the single
`_notified` boolean (`ConditionVariableCS.h`, non-RTOS branch). -/
structure State where
  notified : Bool
deriving Repr, DecidableEq

/-- `notify_one` (bare-metal variant, lines 167–170): inside the critical
section, `_notified = true`. `notify_all` delegates to it. -/
def notifyOne (s : State) : State := { s with notified := true }

/-- What the environment does during one iteration's interrupt-enabled
window (between `core_util_critical_section_exit()` and the re-entry):
whether some `notify_one`/`notify_all` ran, and whether the armed
timeout callback fired (setting the local `timed_out` through its
pointer). -/
structure Window where
  notify : Bool
  timeoutFires : Bool
deriving Repr, DecidableEq

/-- The `do { ... } while (!timed_out)` loop of the bare-metal
`wait_for` (lines 117–135). Each iteration opens one interrupt-enabled
window (consuming one `Window` of the environment), executes `__WFE()`
iff `millisec != 0`, re-enters the critical section, returns `false` if
`_notified`, else loops while `!timed_out`. Returns the `wait_for`
result, the final state and the number of `__WFE()` instructions
executed, or `none` if the environment list ran out while still
waiting. -/
def waitLoop (millisec : Nat) (armed : Bool) (s : State) (timedOut : Bool) :
    List Window → Option (Bool × State × Nat)
  | [] => none
  | e :: rest =>
      -- critical section exit; __ISB(); if (millisec != 0) __WFE();
      let wfe := if millisec ≠ 0 then 1 else 0
      let s := { s with notified := s.notified || e.notify }
      let timedOut := timedOut || (armed && e.timeoutFires)
      -- critical section re-entered
      if s.notified then some (false, s, wfe)
      else if timedOut then some (true, s, wfe)
      else (waitLoop millisec armed s timedOut rest).map
        (fun r => (r.1, r.2.1, wfe + r.2.2))

/-- `ConditionVariableCS::wait_for` (bare-metal variant, lines 106–136):
`bool timed_out = millisec == 0; _notified = false;` a timeout callback
is armed iff `0 < millisec < 0xFFFFFFFF`; then the wait loop runs.
Returns `(timeout_result, final_state, number_of_WFEs)`. -/
def waitFor (s : State) (millisec : Nat) (env : List Window) :
    Option (Bool × State × Nat) :=
  let timedOut := millisec == 0
  let s : State := { s with notified := false }
  let armed := decide (0 < millisec) && decide (millisec < 0xFFFFFFFF)
  waitLoop millisec armed s timedOut env

end CVBM

namespace Serial

/-- Modelled from the spec: the event bits of `platform/mbed_poll.h` are
not among the provided sources; §6 names the bits used (`POLLIN`,
`POLLOUT`, `POLLHUP`, `POLLERR`, `POLLNVAL`), which are distinct
one-hot masks in a 16-bit `short`. -/
def POLLIN : Nat := 0x0001

/-- See `POLLIN`. -/
def POLLOUT : Nat := 0x0010

/-- See `POLLIN`. -/
def POLLERR : Nat := 0x1000

/-- See `POLLIN`. -/
def POLLHUP : Nat := 0x2000

/-- See `POLLIN`. -/
def POLLNVAL : Nat := 0x4000

/-- State of a `UARTSerial` endpoint. The two rings are modelled from
the spec (§4.3: `CircularBuffer`, whose header is not among the provided
sources, is a fixed-capacity byte FIFO with `push`/`pop`/`empty`/`full`)
as front-first lists bounded by `rxCap`/`txCap`. `dcd_configured` /
`dcd_read` model `_dcd_irq` being non-null and the current electrical
read of its pin; `txOut` is a ghost trace of every byte emitted to the
peripheral by `SerialBase::_base_putc`. -/
structure SerialState where
  rxCap : Nat
  txCap : Nat
  rxbuf : List Nat
  txbuf : List Nat
  blocking : Bool
  tx_irq_enabled : Bool
  rx_irq_enabled : Bool
  dcd_configured : Bool
  dcd_read : Nat
  poll_wake_events : Nat
  sigio_set : Bool
  txOut : List Nat
deriving Repr, DecidableEq

/-- `UARTSerial::UARTSerial`: `_blocking(true)`, `_tx_irq_enabled(false)`,
`_rx_irq_enabled(true)`, `_dcd_irq(NULL)`, `_poll_wake_events(0)`, and
both rings empty. -/
def initState (rxCap txCap : Nat) : SerialState :=
  { rxCap := rxCap, txCap := txCap, rxbuf := [], txbuf := [],
    blocking := true, tx_irq_enabled := false, rx_irq_enabled := true,
    dcd_configured := false, dcd_read := 0, poll_wake_events := 0,
    sigio_set := false, txOut := [] }

/-- `UARTSerial::hup`: `_dcd_irq && _dcd_irq->read() != 0`. -/
def hup (s : SerialState) : Bool :=
  s.dcd_configured && s.dcd_read != 0

/-- `UARTSerial::wake(cv, events)` (lines 227–242), the part affecting
endpoint state: `if (_poll_wake_events & events) { _poll_wake_events &=
~events; wake_poll(events); }`. The CV notification and the sigio
callback mutate nothing in the endpoint. `~events` on a 16-bit event
mask is complement within `0xFFFF`. Returns the new state and whether
`wake_poll` was called. -/
def wake (s : SerialState) (events : Nat) : SerialState × Bool :=
  if s.poll_wake_events &&& events ≠ 0 then
    ({ s with poll_wake_events := s.poll_wake_events &&& (0xFFFF ^^^ events) }, true)
  else (s, false)

/-- `UARTSerial::poll(events)` (lines 244–263). The `events` argument is
ignored by the source; `POLLIN` iff the RX ring is non-empty, then
`POLLHUP` iff `hup()`, else `POLLOUT` iff the TX ring is not full. -/
def poll (s : SerialState) (events : Nat) : Nat :=
  let revents := 0
  let revents := if !s.rxbuf.isEmpty then revents ||| POLLIN else revents
  let revents :=
    if hup s then revents ||| POLLHUP
    else if s.txbuf.length < s.txCap then revents ||| POLLOUT
    else revents
  revents

/-- `UARTSerial::poll_with_wake(events, wake)` (lines 265–272):
`revents = poll(events); if (wake && !(revents & events))
_poll_wake_events |= events;`. -/
def poll_with_wake (s : SerialState) (events : Nat) (wake : Bool) : SerialState × Nat :=
  let revents := poll s events
  if wake && (revents &&& events == 0) then
    ({ s with poll_wake_events := s.poll_wake_events ||| events }, revents)
  else (s, revents)

/-- `UARTSerial::rx_irq` (lines 286–307). `hw` is the byte sequence the
peripheral offers during this invocation (`SerialBase::readable()` is
true while it is non-empty): the while loop pushes bytes until the ring
is full or the peripheral runs dry. If the ring filled while the RX ISR
was attached, it is detached (`_rx_irq_enabled = false`). If the ring
went empty → non-empty, `wake(&_cv_rx, POLLIN)` runs. -/
def rx_irq (s : SerialState) (hw : List Nat) : SerialState :=
  let wasEmpty := s.rxbuf.isEmpty
  let s := { s with rxbuf := s.rxbuf ++ hw.take (s.rxCap - s.rxbuf.length) }
  let s :=
    if s.rx_irq_enabled && decide (s.rxbuf.length = s.rxCap)
    then { s with rx_irq_enabled := false } else s
  if wasEmpty && !s.rxbuf.isEmpty then (wake s POLLIN).1 else s

/-- `UARTSerial::tx_irq` (lines 310–332). `accept` is how many bytes the
peripheral accepts during this invocation (`SerialBase::writeable()`
stays true for that many pops): the while loop pops to `_base_putc`
until the ring is empty or the peripheral stops accepting. If the ring
emptied while the TX ISR was attached, it is detached. If the ring went
full → not-full and the line is not hung up, `wake(&_cv_tx, POLLOUT)`
runs. -/
def tx_irq (s : SerialState) (accept : Nat) : SerialState :=
  let wasFull := decide (s.txbuf.length = s.txCap)
  let s := { s with txbuf := s.txbuf.drop accept, txOut := s.txOut ++ s.txbuf.take accept }
  let s :=
    if s.tx_irq_enabled && s.txbuf.isEmpty
    then { s with tx_irq_enabled := false } else s
  if wasFull && decide (s.txbuf.length < s.txCap) && !(hup s) then (wake s POLLOUT).1 else s

/-- Result of `UARTSerial::read`: the bytes copied out (return value =
their count), `-EAGAIN`, or `pending` — the model's marker that the call
is still suspended in `_cv_rx.wait()` when the environment list runs
out (the code has no other way to leave the wait loop). -/
inductive ReadResult where
  | bytes (data : List Nat)
  | eagain
  | pending
deriving Repr, DecidableEq

/-- The `while (_rxbuf.empty())` wait loop of `read` (lines 196–203) in
blocking mode. Each `_cv_rx.wait()` opens the critical section; `env`
lists, per wait, the bytes the RX ISR (if attached) finds available on
the peripheral while the reader is suspended. -/
def readWaitLoop (s : SerialState) : List (List Nat) → Option SerialState
  | [] => if s.rxbuf.isEmpty then none else some s
  | hw :: rest =>
      if s.rxbuf.isEmpty then
        let s := if s.rx_irq_enabled then rx_irq s hw else s
        readWaitLoop s rest
      else some s

/-- `UARTSerial::read(buffer, length)` (lines 185–220): zero length
returns 0; an empty ring in non-blocking mode returns `-EAGAIN`; in
blocking mode the wait loop runs until the ring is non-empty; then up to
`length` bytes are popped from the ring front, and, if the RX ISR had
been disabled (ring was full), `rx_irq` is invoked once directly (`hw`
is what the peripheral holds then) and the ISR re-attached if space
remains. -/
def read (s : SerialState) (len : Nat) (env : List (List Nat)) (hw : List Nat) :
    ReadResult × SerialState :=
  if len = 0 then (.bytes [], s)
  else if s.rxbuf.isEmpty && !s.blocking then (.eagain, s)
  else
    match readWaitLoop s env with
    | none => (.pending, s)
    | some s1 =>
        let data := s1.rxbuf.take len
        let s2 := { s1 with rxbuf := s1.rxbuf.drop len }
        let s3 :=
          if !s2.rx_irq_enabled then
            let s' := rx_irq s2 hw
            if s'.rxbuf.length < s'.rxCap
            then { s' with rx_irq_enabled := true } else s'
          else s2
        (.bytes data, s3)

/-- Result of `UARTSerial::write`: the count of bytes enqueued,
`-EAGAIN`, or `pending` — the model's marker that the call is still
suspended in `_cv_tx.wait()` (or that the iteration fuel ran out). -/
inductive WriteResult where
  | count (n : Nat)
  | eagain
  | pending
deriving Repr, DecidableEq

/-- The `do { _cv_tx.wait(); } while (_txbuf.full())` loop of `write`
(lines 161–164). Each wait opens the critical section; `env` lists, per
wait, how many bytes the peripheral accepts from the TX ISR (if
attached) while the writer is suspended. Returns the state and the
remaining environment once the ring is no longer full. -/
def txWaitLoop (s : SerialState) : List Nat → Option (SerialState × List Nat)
  | [] => none
  | a :: rest =>
      let s := if s.tx_irq_enabled then tx_irq s a else s
      if decide (s.txbuf.length = s.txCap) then txWaitLoop s rest else some (s, rest)

/-- The kick at the bottom of `write`'s outer loop (lines 172–178):
`if (!_tx_irq_enabled) { tx_irq(); if (!_txbuf.empty()) { attach;
_tx_irq_enabled = true; } }`, with `accept` the bytes the peripheral
takes during the direct `tx_irq()` call. -/
def txKick (s : SerialState) (accept : Nat) : SerialState :=
  if !s.tx_irq_enabled then
    let s := tx_irq s accept
    if !s.txbuf.isEmpty then { s with tx_irq_enabled := true } else s
  else s

/-- The outer `while (data_written < length)` loop of `write`
(lines 155–179). `env` supplies one peripheral-accept count per
hardware opportunity (each `_cv_tx.wait()` and each direct `tx_irq()`
kick, in program order; a kick with the environment exhausted sees a
non-writeable peripheral). `fuel` bounds the outer iterations. Returns
`data_written` and the final state, or `none` while still suspended /
out of fuel. -/
def writeLoop (buf : List Nat) (s : SerialState) (written : Nat) (env : List Nat) :
    Nat → Option (Nat × SerialState)
  | 0 => none
  | fuel + 1 =>
      if written < buf.length then
        if decide (s.txbuf.length = s.txCap) && !s.blocking then
          some (written, s)  -- break
        else
          match (if decide (s.txbuf.length = s.txCap)
                 then txWaitLoop s env else some (s, env)) with
          | none => none
          | some (s, env) =>
              -- while (data_written < length && !_txbuf.full()) push
              let chunk := (buf.drop written).take (s.txCap - s.txbuf.length)
              let s := { s with txbuf := s.txbuf ++ chunk }
              let written := written + chunk.length
              let s := txKick s (env.headD 0)
              let env := env.tail
              writeLoop buf s written env fuel
      else
        some (written, s)

/-- `UARTSerial::write(buffer, length)` (lines 141–183): zero length
returns 0; otherwise the outer loop runs and the return value is
`data_written != 0 ? data_written : -EAGAIN`. -/
def write (s : SerialState) (buf : List Nat) (env : List Nat) (fuel : Nat) :
    WriteResult × SerialState :=
  if buf.length = 0 then (.count 0, s)
  else
    match writeLoop buf s 0 env fuel with
    | none => (.pending, s)
    | some (written, s') =>
        if written ≠ 0 then (.count written, s') else (.eagain, s')

/-- The ISR state-consistency invariant (spec §8, invariant 3): the RX
ISR is detached only while the RX ring is full, the TX ISR is detached
only while the TX ring is empty. -/
def isrInv (s : SerialState) : Prop :=
  (s.rx_irq_enabled = false → s.rxbuf.length = s.rxCap) ∧
  (s.tx_irq_enabled = false → s.txbuf = [])

instance (s : SerialState) : Decidable (isrInv s) := by
  unfold isrInv; infer_instance

/-- The ring capacity bound (spec §8, invariant 2): both rings hold at
most their capacity. -/
def capInv (s : SerialState) : Prop :=
  s.rxbuf.length ≤ s.rxCap ∧ s.txbuf.length ≤ s.txCap

instance (s : SerialState) : Decidable (capInv s) := by
  unfold capInv; infer_instance

/-- The endpoint state invariant: capacity bounds plus ISR state
consistency. -/
def stInv (s : SerialState) : Prop := capInv s ∧ isrInv s

instance (s : SerialState) : Decidable (stInv s) := by
  unfold stInv; infer_instance

end Serial

namespace MPoll

open Serial (POLLIN POLLOUT POLLERR POLLHUP POLLNVAL)

/-- A `FileHandle` as the `poll` multiplexer sees it: its
`poll_with_wake(mask, arm)` and `poll(mask)` queries, allowed to vary
with the scan round (the device's readiness changes under ISR
activity). -/
structure FH where
  poll_with_wake : Nat → Nat → Bool → Nat
  poll : Nat → Nat → Nat

/-- One `pollfh` entry: the device pointer (`none` = `NULL`), the
requested `events`, and the `revents` output field. -/
structure Pollfh where
  fh : Option FH
  events : Nat
  revents : Nat

/-- The per-handle body of the scan loop (`mbed_poll.cpp` lines 52–75):
build `mask = events | POLLERR | POLLHUP | POLLNVAL`; if the handle is
non-null and everyone so far supports wake, query `poll_with_wake(mask,
count == 0 && timeout != 0)` and mask the result; a `POLLNVAL` answer
downgrades the whole call to legacy polling (and the entry is re-queried
with plain `poll`); a null handle yields `POLLNVAL`; a non-zero
`revents` bumps `count`. -/
def scanEntry (round : Nat) (timeout : Int) (e : Pollfh) (count : Nat) (sw : Bool) :
    Pollfh × Nat × Bool :=
  let mask := e.events ||| POLLERR ||| POLLHUP ||| POLLNVAL
  let (rev, sw) :=
    match e.fh with
    | some fh =>
        let (rev, sw) :=
          if sw then
            let r := fh.poll_with_wake round mask (decide (count = 0) && decide (timeout ≠ 0)) &&& mask
            if r &&& POLLNVAL ≠ 0 then (r, false) else (r, true)
          else (0, sw)
        let rev := if !sw then fh.poll round mask &&& mask else rev
        (rev, sw)
    | none => (POLLNVAL, sw)
  let count := if rev ≠ 0 then count + 1 else count
  ({ e with revents := rev }, count, sw)

/-- The `for (unsigned n = 0; n < nfhs; n++)` scan (lines 52–75),
threading the running `count` and the `all_handles_support_wake`
flag. -/
def scanList (round : Nat) (timeout : Int) :
    List Pollfh → Nat → Bool → List Pollfh × Nat × Bool
  | [], count, sw => ([], count, sw)
  | e :: rest, count, sw =>
      let (e', count', sw') := scanEntry round timeout e count sw
      let (rest', count'', sw'') := scanList round timeout rest count' sw'
      (e' :: rest', count'', sw'')

/-- What the environment does during one blocking step of the outer
loop: whether `wake_cv.wait_until(finish_time)` timed out (wake-capable
path), and whether the finite timeout has elapsed by the legacy path's
clock check. -/
structure WaitEv where
  timedOut : Bool
  elapsed : Bool

/-- The outer `for (;;)` loop of `poll` (lines 50–110): scan; stop when
`count > 0 || timeout == 0`; otherwise block — on the process-wide
`wake_cv` when still wake-capable (a timed-out `wait_until` sets
`timeout = 0` and rescans once), or by the legacy clock-check plus 1 ms
sleep. One `WaitEv` is consumed per blocking step; the scan round is
advanced so device readiness may change between scans. `fuel` bounds
the iterations; `none` means the call is still blocked (infinite wait)
or out of fuel. -/
def pollLoop (round : Nat) (entries : List Pollfh) (timeout : Int) (count : Nat)
    (sw : Bool) (env : List WaitEv) : Nat → Option (List Pollfh × Nat)
  | 0 => none
  | fuel + 1 =>
      match scanList round timeout entries count sw with
      | (entries, count, sw) =>
        if count > 0 ∨ timeout = 0 then some (entries, count)
        else
          match env with
          | [] => none
          | ev :: env =>
              if sw then
                let timedOut := if timeout > 0 then ev.timedOut else false
                if timedOut then pollLoop (round + 1) entries 0 count sw env fuel
                else pollLoop (round + 1) entries timeout count sw env fuel
              else
                if timeout > 0 ∧ ev.elapsed then some (entries, count)
                else pollLoop (round + 1) entries timeout count sw env fuel

/-- `poll(fhs, nfhs, timeout)` (lines 39–115): `count = 0`,
`all_handles_support_wake = true`, then the outer loop. -/
def poll (entries : List Pollfh) (timeout : Int) (env : List WaitEv) (fuel : Nat) :
    Option (List Pollfh × Nat) :=
  pollLoop 0 entries timeout 0 true env fuel

end MPoll

/-! # Theorems -/

/-! ## Frame lemmas for the endpoint operations -/

namespace Serial

@[simp] theorem wake_rxbuf (s : SerialState) (e : Nat) :
    ((wake s e).1).rxbuf = s.rxbuf := by
  unfold wake; split <;> rfl

@[simp] theorem wake_txbuf (s : SerialState) (e : Nat) :
    ((wake s e).1).txbuf = s.txbuf := by
  unfold wake; split <;> rfl

@[simp] theorem wake_txOut (s : SerialState) (e : Nat) :
    ((wake s e).1).txOut = s.txOut := by
  unfold wake; split <;> rfl

@[simp] theorem wake_blocking (s : SerialState) (e : Nat) :
    ((wake s e).1).blocking = s.blocking := by
  unfold wake; split <;> rfl

@[simp] theorem wake_rx_enabled (s : SerialState) (e : Nat) :
    ((wake s e).1).rx_irq_enabled = s.rx_irq_enabled := by
  unfold wake; split <;> rfl

@[simp] theorem wake_tx_enabled (s : SerialState) (e : Nat) :
    ((wake s e).1).tx_irq_enabled = s.tx_irq_enabled := by
  unfold wake; split <;> rfl

@[simp] theorem wake_rxCap (s : SerialState) (e : Nat) :
    ((wake s e).1).rxCap = s.rxCap := by
  unfold wake; split <;> rfl

@[simp] theorem wake_txCap (s : SerialState) (e : Nat) :
    ((wake s e).1).txCap = s.txCap := by
  unfold wake; split <;> rfl

/-- `rx_irq` pushes exactly the absorbed peripheral bytes at the ring's
tail and touches nothing on the TX side. -/
theorem rx_irq_spec (s : SerialState) (hw : List Nat) :
    (rx_irq s hw).rxbuf = s.rxbuf ++ hw.take (s.rxCap - s.rxbuf.length) ∧
    (rx_irq s hw).txbuf = s.txbuf ∧
    (rx_irq s hw).txOut = s.txOut ∧
    (rx_irq s hw).tx_irq_enabled = s.tx_irq_enabled ∧
    (rx_irq s hw).blocking = s.blocking ∧
    (rx_irq s hw).rxCap = s.rxCap ∧
    (rx_irq s hw).txCap = s.txCap := by
  unfold rx_irq
  dsimp only
  refine ⟨?_, ?_, ?_, ?_, ?_, ?_, ?_⟩ <;>
  · split <;> split <;> simp

@[simp] theorem rx_irq_rxbuf (s : SerialState) (hw : List Nat) :
    (rx_irq s hw).rxbuf = s.rxbuf ++ hw.take (s.rxCap - s.rxbuf.length) :=
  (rx_irq_spec s hw).1

@[simp] theorem rx_irq_txbuf (s : SerialState) (hw : List Nat) :
    (rx_irq s hw).txbuf = s.txbuf := (rx_irq_spec s hw).2.1

@[simp] theorem rx_irq_txOut (s : SerialState) (hw : List Nat) :
    (rx_irq s hw).txOut = s.txOut := (rx_irq_spec s hw).2.2.1

@[simp] theorem rx_irq_tx_enabled (s : SerialState) (hw : List Nat) :
    (rx_irq s hw).tx_irq_enabled = s.tx_irq_enabled := (rx_irq_spec s hw).2.2.2.1

@[simp] theorem rx_irq_blocking (s : SerialState) (hw : List Nat) :
    (rx_irq s hw).blocking = s.blocking := (rx_irq_spec s hw).2.2.2.2.1

@[simp] theorem rx_irq_rxCap (s : SerialState) (hw : List Nat) :
    (rx_irq s hw).rxCap = s.rxCap := (rx_irq_spec s hw).2.2.2.2.2.1

@[simp] theorem rx_irq_txCap (s : SerialState) (hw : List Nat) :
    (rx_irq s hw).txCap = s.txCap := (rx_irq_spec s hw).2.2.2.2.2.2

/-- `tx_irq` moves the accepted front of the TX ring to the peripheral
trace and touches nothing on the RX side: in particular the
concatenation `txOut ++ txbuf` — the full byte stream — is invariant. -/
theorem tx_irq_spec (s : SerialState) (a : Nat) :
    (tx_irq s a).txbuf = s.txbuf.drop a ∧
    (tx_irq s a).txOut = s.txOut ++ s.txbuf.take a ∧
    (tx_irq s a).rxbuf = s.rxbuf ∧
    (tx_irq s a).rx_irq_enabled = s.rx_irq_enabled ∧
    (tx_irq s a).blocking = s.blocking ∧
    (tx_irq s a).rxCap = s.rxCap ∧
    (tx_irq s a).txCap = s.txCap := by
  unfold tx_irq
  dsimp only
  refine ⟨?_, ?_, ?_, ?_, ?_, ?_, ?_⟩ <;>
  · split <;> split <;> simp

@[simp] theorem tx_irq_txbuf (s : SerialState) (a : Nat) :
    (tx_irq s a).txbuf = s.txbuf.drop a := (tx_irq_spec s a).1

@[simp] theorem tx_irq_txOut (s : SerialState) (a : Nat) :
    (tx_irq s a).txOut = s.txOut ++ s.txbuf.take a := (tx_irq_spec s a).2.1

@[simp] theorem tx_irq_rxbuf (s : SerialState) (a : Nat) :
    (tx_irq s a).rxbuf = s.rxbuf := (tx_irq_spec s a).2.2.1

@[simp] theorem tx_irq_rx_enabled (s : SerialState) (a : Nat) :
    (tx_irq s a).rx_irq_enabled = s.rx_irq_enabled := (tx_irq_spec s a).2.2.2.1

@[simp] theorem tx_irq_blocking (s : SerialState) (a : Nat) :
    (tx_irq s a).blocking = s.blocking := (tx_irq_spec s a).2.2.2.2.1

@[simp] theorem tx_irq_rxCap (s : SerialState) (a : Nat) :
    (tx_irq s a).rxCap = s.rxCap := (tx_irq_spec s a).2.2.2.2.2.1

@[simp] theorem tx_irq_txCap (s : SerialState) (a : Nat) :
    (tx_irq s a).txCap = s.txCap := (tx_irq_spec s a).2.2.2.2.2.2

theorem tx_irq_conserve (s : SerialState) (a : Nat) :
    (tx_irq s a).txOut ++ (tx_irq s a).txbuf = s.txOut ++ s.txbuf := by
  simp [List.take_append_drop]

end Serial

/-- C1: the claim — `notify_one` wakes exactly the unlinked head of the
wait list — fails on the code. `notify_one` re-reads the member
`_wait_list` *after* `_remove_wait_list(_wait_list)` has advanced it:
with a single waiter (thread 100) the subsequent
`osThreadFlagsSet(_wait_list->tid, ...)` dereferences `NULL`; with two
waiters (head thread 100, then thread 200) the unblock flag is set on
thread 200 — which is still linked on the list — while the unlinked
head, thread 100, is never flagged. -/
theorem notify_one_reads_stale_wait_list :
    (CVCS.notifyOne CVCS.oneWaiterState).2 = CVCS.NotifyOneResult.nullDeref ∧
    (CVCS.twoWaiterState.heap 1).tid = 100 ∧
    CVCS.twoWaiterState.waitList = some 1 ∧
    (CVCS.notifyOne CVCS.twoWaiterState).2 = CVCS.NotifyOneResult.flagSet 200 ∧
    ((CVCS.notifyOne CVCS.twoWaiterState).1.heap 1).inList = false ∧
    ((CVCS.notifyOne CVCS.twoWaiterState).1.heap 2).inList = true ∧
    (CVCS.notifyOne CVCS.twoWaiterState).1.waitList = some 2 := by
  decide

/-- C4: for every state and requested-events argument, `poll` sets
`POLLIN` iff the RX ring is non-empty, `POLLHUP` iff `hup()` (which is
true iff a DCD input is configured and its pin reads in the
disconnected state), `POLLOUT` iff not hung up and the TX ring is not
full, and no other bits; `POLLHUP` and `POLLOUT` are never both set. -/
theorem poll_readiness_mask (s : Serial.SerialState) (events : Nat) :
    (Serial.poll s events &&& Serial.POLLIN ≠ 0 ↔ s.rxbuf ≠ []) ∧
    (Serial.poll s events &&& Serial.POLLHUP ≠ 0 ↔ Serial.hup s = true) ∧
    (Serial.hup s = true ↔ s.dcd_configured = true ∧ s.dcd_read ≠ 0) ∧
    (Serial.poll s events &&& Serial.POLLOUT ≠ 0 ↔
      Serial.hup s = false ∧ s.txbuf.length < s.txCap) ∧
    Serial.poll s events &&& (Serial.POLLIN ||| Serial.POLLHUP ||| Serial.POLLOUT) =
      Serial.poll s events ∧
    ¬(Serial.poll s events &&& Serial.POLLHUP ≠ 0 ∧
      Serial.poll s events &&& Serial.POLLOUT ≠ 0) := by
  have hne : s.rxbuf ≠ [] ↔ s.rxbuf.isEmpty = false := by
    cases s.rxbuf <;> simp
  have hhup : Serial.hup s = true ↔ s.dcd_configured = true ∧ s.dcd_read ≠ 0 := by
    unfold Serial.hup
    cases s.dcd_configured <;> simp [bne_iff_ne]
  refine ⟨?_, ?_, hhup, ?_, ?_, ?_⟩ <;>
  · rcases he : s.rxbuf.isEmpty <;> rcases hh : Serial.hup s <;>
      by_cases ht : s.txbuf.length < s.txCap <;>
      simp only [Serial.poll, he, hh, hne, ht, Bool.not_false, Bool.not_true,
        if_true, if_false, ite_true, ite_false, Bool.true_eq_false, Bool.false_eq_true,
        iff_true, iff_false, not_true, not_false_iff] <;>
      simp [he, hh, ht, hne] <;>
      decide

/-- C5 counterexample: the claim — `wait_for(0)` always returns `true`
(timeout) regardless of notifications arriving while the call runs —
fails on the bare-metal code: if a notification is delivered during the
call's single interrupt-enabled window, the `_notified` check at line
131 returns `false`. -/
theorem wait_for_zero_notified_in_window :
    CVBM.waitFor ⟨false⟩ 0 [⟨true, false⟩] = some (false, ⟨true⟩, 0) := by
  decide

/-- C5 amended: `wait_for(0)` never blocks — the bare-metal variant
skips `__WFE()` (zero wait-for-event instructions executed) and returns
after its single interrupt-enabled window, and the RTOS variant's
zero-timeout `osThreadFlagsWait` try never blocks — and it returns
`true` (timeout) unless a notification is delivered during that window
(bare-metal) or the unblock flag is pending at the non-blocking flag
check (RTOS), in which case it returns `false`. -/
theorem wait_for_zero_nonblocking_poll (s : CVBM.State) (e : CVBM.Window)
    (env : List CVBM.Window) (pending : Bool) :
    CVBM.waitFor s 0 (e :: env) = some (!e.notify, ⟨e.notify⟩, 0) ∧
    CVCS.timeoutDecision 0 (CVCS.flagsWaitZero pending) = !pending := by
  constructor
  · cases he : e.notify <;>
      simp [CVBM.waitFor, CVBM.waitLoop, he]
  · cases pending <;> rfl

/-- C6: `poll_with_wake(events, arm)` returns `poll(events)` and ORs
exactly the requested bits into `_poll_wake_events` when `arm` is true
and none of the requested events are ready, leaving the mask unchanged
otherwise; `wake(cv, events)` calls `wake_poll` iff `events` intersects
`_poll_wake_events`, clearing those bits first, so a second `wake` with
the same events cannot fire again until re-armed. -/
theorem poll_with_wake_arm_once_fire_once (s : Serial.SerialState) (events : Nat)
    (arm : Bool) (hpwe : s.poll_wake_events < 65536) :
    (Serial.poll_with_wake s events arm).2 = Serial.poll s events ∧
    (Serial.poll_with_wake s events arm).1 =
      (if arm = true ∧ Serial.poll s events &&& events = 0 then
        { s with poll_wake_events := s.poll_wake_events ||| events } else s) ∧
    ((Serial.wake s events).2 = true ↔ s.poll_wake_events &&& events ≠ 0) ∧
    (Serial.wake s events).1 =
      (if s.poll_wake_events &&& events ≠ 0 then
        { s with poll_wake_events := s.poll_wake_events &&& (0xFFFF ^^^ events) } else s) ∧
    (Serial.wake (Serial.wake s events).1 events).2 = false := by
  have hcleared : (s.poll_wake_events &&& (0xFFFF ^^^ events)) &&& events = 0 := by
    apply Nat.eq_of_testBit_eq
    intro i
    simp only [Nat.testBit_and, Nat.testBit_xor, Nat.zero_testBit]
    by_cases hi : i < 16
    · have hmask : Nat.testBit 0xFFFF i = true := by
        have h16 : (0xFFFF : Nat) = 2 ^ 16 - 1 := by norm_num
        rw [h16, Nat.testBit_two_pow_sub_one]
        simpa using hi
      rcases hb : events.testBit i <;> simp [hb, hmask]
    · have hpb : s.poll_wake_events.testBit i = false := by
        apply Nat.testBit_lt_two_pow
        calc s.poll_wake_events < 65536 := hpwe
          _ = 2 ^ 16 := by norm_num
          _ ≤ 2 ^ i := Nat.pow_le_pow_right (by norm_num) (Nat.le_of_not_lt hi)
      simp [hpb]
  refine ⟨?_, ?_, ?_, ?_, ?_⟩
  · rcases hc : (arm && (Serial.poll s events &&& events == 0)) <;>
      simp [Serial.poll_with_wake, hc]
  · rcases ha : arm <;> rcases hz : (Serial.poll s events &&& events == 0) <;>
      simp only [Serial.poll_with_wake, ha, hz, Bool.false_and, Bool.true_and,
        if_true, if_false, ite_true, ite_false] <;>
      simp_all
  · unfold Serial.wake
    split <;> simp_all
  · unfold Serial.wake
    split <;> simp_all
  · by_cases h : s.poll_wake_events &&& events ≠ 0
    · have h1 : (Serial.wake s events).1 =
          { s with poll_wake_events := s.poll_wake_events &&& (0xFFFF ^^^ events) } := by
        simp [Serial.wake, h]
      rw [h1]
      simp [Serial.wake, hcleared]
    · have h1 : (Serial.wake s events).1 = s := by
        simp [Serial.wake, h]
      rw [h1]
      simp only [ne_eq, not_not] at h
      simp [Serial.wake, h]

/-- Helper: the bare-metal wait loop can produce the `false` (notified)
result only if some consumed window carried a notification, provided
`_notified` is clear when the loop starts. -/
theorem waitLoop_false_implies_notify (ms : Nat) (armed : Bool) :
    ∀ (env : List CVBM.Window) (si : CVBM.State) (t0 : Bool) (s' : CVBM.State) (w : Nat),
      si.notified = false →
      CVBM.waitLoop ms armed si t0 env = some (false, s', w) →
      ∃ e ∈ env, e.notify = true := by
  intro env
  induction env with
  | nil =>
      intro si t0 s' w hsi h
      simp [CVBM.waitLoop] at h
  | cons e rest ih =>
      intro si t0 s' w hsi h
      rcases hn : e.notify
      · simp only [CVBM.waitLoop, hsi, hn, Bool.or_false] at h
        split at h
        · simp_all
        · split at h
          · simp at h
          · rcases hrec : CVBM.waitLoop ms armed { notified := false }
                (t0 || (armed && e.timeoutFires)) rest with _ | r
            · rw [hrec] at h
              simp at h
            · rw [hrec] at h
              simp only [Option.map_some'] at h
              rcases r with ⟨b, s2, w2⟩
              have hb : b = false := by
                have := congrArg (fun o => o.map (fun p => p.1)) h
                simpa using this
              subst hb
              obtain ⟨e', he', hne⟩ := ih ⟨false⟩ _ s2 w2 rfl hrec
              exact ⟨e', List.mem_cons_of_mem _ he', hne⟩
      · exact ⟨e, List.mem_cons_self _ _, hn⟩

/-- C10: the bare-metal `wait_for` resets `_notified` to `false` at
entry, so a `notify_one`/`notify_all` completed before the call has no
effect on its result, and `wait_for` can return `false` (notified) only
if some notification is delivered in one of the interrupt-enabled
windows between the entry reset and the return. -/
theorem bm_wait_for_resets_notified :
    (∀ (s : CVBM.State) (ms : Nat) (env : List CVBM.Window),
       CVBM.waitFor (CVBM.notifyOne s) ms env = CVBM.waitFor s ms env) ∧
    (∀ (s : CVBM.State) (ms : Nat) (env : List CVBM.Window) (s' : CVBM.State) (w : Nat),
       CVBM.waitFor s ms env = some (false, s', w) → ∃ e ∈ env, e.notify = true) := by
  constructor
  · intro s ms env
    rfl
  · intro s ms env s' w h
    exact waitLoop_false_implies_notify ms _ env ⟨false⟩ (ms == 0) s' w rfl h

/-- Closed instance of `bm_wait_for_resets_notified`: at `ms = 5` with a
notification in the first window, `wait_for` returns `false` and the
theorem yields that window. -/
theorem bm_wait_for_resets_notified_witness :
    ∃ e ∈ [(⟨true, false⟩ : CVBM.Window)], e.notify = true :=
  bm_wait_for_resets_notified.2 ⟨false⟩ 5 [⟨true, false⟩] ⟨true⟩ 1 (by decide)

/-- Closed instance of `poll_with_wake_arm_once_fire_once`: with
`_poll_wake_events = 3`, a `wake` on `POLLIN` fires once and a second
`wake` on the same events does not fire again. -/
theorem poll_with_wake_arm_once_fire_once_witness :
    (Serial.wake (Serial.wake { Serial.initState 4 4 with poll_wake_events := 3 } 1).1 1).2
      = false :=
  (poll_with_wake_arm_once_fire_once
    { Serial.initState 4 4 with poll_wake_events := 3 } 1 true (by decide)).2.2.2.2

/-! ## `read` -/

namespace Serial

/-- A non-empty RX ring leaves the wait loop immediately. -/
theorem readWaitLoop_nonempty (s : SerialState) (env : List (List Nat))
    (h : s.rxbuf.isEmpty = false) : readWaitLoop s env = some s := by
  cases env <;> simp [readWaitLoop, h]

/-- The wait loop only ever hands back a state with a non-empty RX
ring. -/
theorem readWaitLoop_some_nonempty :
    ∀ (env : List (List Nat)) (s s1 : SerialState),
      readWaitLoop s env = some s1 → s1.rxbuf ≠ [] := by
  intro env
  induction env with
  | nil =>
      intro s s1 h
      unfold readWaitLoop at h
      split at h
      · simp at h
      · next he =>
          simp only [Option.some.injEq] at h
          subst h
          simpa [List.isEmpty_iff] using he
  | cons hw rest ih =>
      intro s s1 h
      unfold readWaitLoop at h
      split at h
      · exact ih _ _ h
      · next he =>
          simp only [Option.some.injEq] at h
          subst h
          simpa [List.isEmpty_iff] using he

/-- The wait loop only runs the RX ISR: the TX side, the mode flags and
the capacities are untouched. -/
theorem readWaitLoop_frame :
    ∀ (env : List (List Nat)) (s s1 : SerialState),
      readWaitLoop s env = some s1 →
      s1.txbuf = s.txbuf ∧ s1.txOut = s.txOut ∧
      s1.tx_irq_enabled = s.tx_irq_enabled ∧ s1.blocking = s.blocking ∧
      s1.rxCap = s.rxCap ∧ s1.txCap = s.txCap := by
  intro env
  induction env with
  | nil =>
      intro s s1 h
      unfold readWaitLoop at h
      split at h
      · simp at h
      · simp only [Option.some.injEq] at h
        subst h
        exact ⟨rfl, rfl, rfl, rfl, rfl, rfl⟩
  | cons hw rest ih =>
      intro s s1 h
      unfold readWaitLoop at h
      split at h
      · rcases hre : s.rx_irq_enabled <;> simp only [hre] at h
        · simpa using ih _ _ (by simpa using h)
        · obtain ⟨h1, h2, h3, h4, h5, h6⟩ := ih _ _ (by simpa using h)
          simp_all
      · simp only [Option.some.injEq] at h
        subst h
        exact ⟨rfl, rfl, rfl, rfl, rfl, rfl⟩

end Serial

/-- C2: `read(buf, 0)` returns 0 with no state change; a non-blocking
read of an empty RX ring returns `-EAGAIN` with no state change;
otherwise, once the RX ring is non-empty (immediately, or — in blocking
mode — when the wait loop hands back a state `s1`), `read` removes
`min(length, buffered)` bytes from the ring's front in FIFO order,
returns exactly those bytes (count ≥ 1), and the ring afterwards is the
remainder (possibly extended at the tail by the RX-ISR re-prime); a
blocking read never returns `-EAGAIN`. -/
theorem read_fifo_drain :
    (∀ (s : Serial.SerialState) (env : List (List Nat)) (hw : List Nat),
       Serial.read s 0 env hw = (.bytes [], s)) ∧
    (∀ (s : Serial.SerialState) (len : Nat) (env : List (List Nat)) (hw : List Nat),
       len ≠ 0 → s.rxbuf = [] → s.blocking = false →
       Serial.read s len env hw = (.eagain, s)) ∧
    (∀ (s s1 : Serial.SerialState) (len : Nat) (env : List (List Nat)) (hw : List Nat),
       len ≠ 0 → ¬(s.rxbuf = [] ∧ s.blocking = false) →
       Serial.readWaitLoop s env = some s1 →
       (Serial.read s len env hw).1 = .bytes (s1.rxbuf.take len) ∧
       (s1.rxbuf.take len).length = min len s1.rxbuf.length ∧
       1 ≤ (s1.rxbuf.take len).length ∧
       ∃ extra, (Serial.read s len env hw).2.rxbuf = s1.rxbuf.drop len ++ extra) ∧
    (∀ (s : Serial.SerialState) (len : Nat) (env : List (List Nat)) (hw : List Nat),
       s.blocking = true → (Serial.read s len env hw).1 ≠ .eagain) := by
  refine ⟨?_, ?_, ?_, ?_⟩
  · intro s env hw
    rfl
  · intro s len env hw hlen hemp hblk
    unfold Serial.read
    simp [hlen, hemp, hblk]
  · intro s s1 len env hw hlen hnb hloop
    have hcond : (s.rxbuf.isEmpty && !s.blocking) = false := by
      rcases he : s.rxbuf.isEmpty <;> rcases hb : s.blocking <;> simp_all [List.isEmpty_iff]
    have hne : s1.rxbuf ≠ [] := Serial.readWaitLoop_some_nonempty env s s1 hloop
    have key : Serial.read s len env hw =
        (Serial.ReadResult.bytes (s1.rxbuf.take len),
          if !({ s1 with rxbuf := s1.rxbuf.drop len } : Serial.SerialState).rx_irq_enabled then
            (fun s' : Serial.SerialState =>
              if s'.rxbuf.length < s'.rxCap then { s' with rx_irq_enabled := true } else s')
              (Serial.rx_irq { s1 with rxbuf := s1.rxbuf.drop len } hw)
          else { s1 with rxbuf := s1.rxbuf.drop len }) := by
      unfold Serial.read
      rw [if_neg hlen, if_neg (by simp [hcond]), hloop]
    refine ⟨?_, ?_, ?_, ?_⟩
    · rw [key]
    · simp [List.length_take]
    · have h1 : 1 ≤ len := Nat.one_le_iff_ne_zero.mpr hlen
      have h2 : 1 ≤ s1.rxbuf.length := by
        cases hx : s1.rxbuf with
        | nil => exact absurd hx hne
        | cons a t => simp
      simp only [List.length_take]
      omega
    · rw [key]
      dsimp only
      split
      · refine ⟨List.take (s1.rxCap - (List.drop len s1.rxbuf).length) hw, ?_⟩
        split <;> simp
      · exact ⟨[], by simp⟩
  · intro s len env hw hblk
    unfold Serial.read
    rcases hl : len with _ | n
    · simp
    · simp only [hblk]
      rcases hloop : Serial.readWaitLoop s env with _ | s1 <;> simp [hloop]

/-- Closed instance of `read_fifo_drain`: draining one byte of the ring
`[7, 8]`. -/
theorem read_fifo_drain_witness :
    (Serial.read { Serial.initState 4 4 with rxbuf := [7, 8] } 1 [] []).1 =
      .bytes ([7, 8].take 1) :=
  (read_fifo_drain.2.2.1 { Serial.initState 4 4 with rxbuf := [7, 8] }
    { Serial.initState 4 4 with rxbuf := [7, 8] } 1 [] []
    (by decide) (by simp) (by rfl)).1

/-! ## `write` -/

theorem take_length_take {α : Type} (l : List α) (a : Nat) :
    l.take ((l.take a).length) = l.take a := by
  rw [List.length_take]
  rcases le_total a l.length with h | h
  · rw [min_eq_left h]
  · rw [min_eq_right h, List.take_length, List.take_of_length_le h]

namespace Serial

/-- The TX wait loop conserves the byte stream, leaves a not-full ring,
and touches nothing outside the TX side. -/
theorem txWaitLoop_spec :
    ∀ (env : List Nat) (s s1 : SerialState) (env1 : List Nat),
      txWaitLoop s env = some (s1, env1) →
      s1.txOut ++ s1.txbuf = s.txOut ++ s.txbuf ∧
      s1.blocking = s.blocking ∧ s1.txCap = s.txCap ∧
      s1.txbuf.length ≤ s.txbuf.length ∧
      ¬(s1.txbuf.length = s1.txCap) := by
  intro env
  induction env with
  | nil =>
      intro s s1 env1 h
      simp [txWaitLoop] at h
  | cons a rest ih =>
      intro s s1 env1 h
      unfold txWaitLoop at h
      rcases hen : s.tx_irq_enabled <;> simp only [hen] at h
      · simp only [if_true, if_false, ite_true, ite_false, Bool.false_eq_true] at h
        split at h
        · obtain ⟨h1, h2, h3, h4, h5⟩ := ih _ _ _ h
          exact ⟨h1, h2, h3, h4, h5⟩
        · next hfull =>
            simp only [Option.some.injEq, Prod.mk.injEq] at h
            obtain ⟨rfl, rfl⟩ := h
            exact ⟨rfl, rfl, rfl, le_refl _, by simpa using hfull⟩
      · simp only [if_true, ite_true] at h
        split at h
        · obtain ⟨h1, h2, h3, h4, h5⟩ := ih _ _ _ h
          refine ⟨?_, ?_, ?_, ?_, h5⟩
          · rw [h1, tx_irq_txOut, tx_irq_txbuf]
            simp [List.take_append_drop]
          · rw [h2, tx_irq_blocking]
          · rw [h3, tx_irq_txCap]
          · calc s1.txbuf.length ≤ (tx_irq s a).txbuf.length := h4
              _ ≤ s.txbuf.length := by simp [List.length_drop]
        · next hfull =>
            simp only [Option.some.injEq, Prod.mk.injEq] at h
            obtain ⟨rfl, rfl⟩ := h
            refine ⟨tx_irq_conserve s a, tx_irq_blocking s a, tx_irq_txCap s a, ?_, ?_⟩
            · simp [List.length_drop]
            · simpa using hfull

/-- The kick at the bottom of `write`'s loop conserves the byte stream
and does not grow the ring. -/
theorem txKick_spec (s : SerialState) (a : Nat) :
    (txKick s a).txOut ++ (txKick s a).txbuf = s.txOut ++ s.txbuf ∧
    (txKick s a).blocking = s.blocking ∧ (txKick s a).txCap = s.txCap ∧
    (txKick s a).txbuf.length ≤ s.txbuf.length := by
  refine ⟨?_, ?_, ?_, ?_⟩ <;>
  · unfold txKick
    dsimp only
    split
    · split <;> simp [List.take_append_drop, List.length_drop]
    · simp

/-- Core specification of `write`'s outer loop: the returned count never
shrinks, never exceeds the buffer, the enqueued bytes are exactly
`buf[written..n)` appended in order to the byte stream
`txOut ++ txbuf`, and in blocking mode the loop only returns once the
whole buffer is enqueued. -/
theorem writeLoop_spec :
    ∀ (fuel : Nat) (buf : List Nat) (s : SerialState) (written : Nat) (env : List Nat)
      (n : Nat) (s' : SerialState),
      written ≤ buf.length →
      writeLoop buf s written env fuel = some (n, s') →
      written ≤ n ∧ n ≤ buf.length ∧
      s'.txOut ++ s'.txbuf = s.txOut ++ s.txbuf ++ ((buf.drop written).take (n - written)) ∧
      s'.blocking = s.blocking ∧
      (s.blocking = true → n = buf.length) := by
  intro fuel
  induction fuel with
  | zero =>
      intro buf s written env n s' hw h
      simp [writeLoop] at h
  | succ fuel ih =>
      intro buf s written env n s' hwr h
      unfold writeLoop at h
      split at h
      · next hlt =>
          split at h
          · next hbrk =>
              simp only [Option.some.injEq, Prod.mk.injEq] at h
              obtain ⟨rfl, rfl⟩ := h
              have hb : s.blocking = false := by
                rcases hbl : s.blocking
                · rfl
                · rw [hbl] at hbrk
                  simp at hbrk
              exact ⟨le_refl _, le_of_lt hlt, by simp, rfl, by
                intro hc
                rw [hc] at hb
                exact absurd hb (by simp)⟩
          · rcases hwait : (if decide (s.txbuf.length = s.txCap) = true
                then txWaitLoop s env else some (s, env)) with _ | p
            · rw [hwait] at h
              simp at h
            · rcases p with ⟨sw, envw⟩
              rw [hwait] at h
              dsimp only at h
              -- properties of the wait step
              have hwprops : sw.txOut ++ sw.txbuf = s.txOut ++ s.txbuf ∧
                  sw.blocking = s.blocking ∧ sw.txCap = s.txCap := by
                split at hwait
                · obtain ⟨h1, h2, h3, _, _⟩ := txWaitLoop_spec env s sw envw hwait
                  exact ⟨h1, h2, h3⟩
                · simp only [Option.some.injEq, Prod.mk.injEq] at hwait
                  obtain ⟨rfl, rfl⟩ := hwait
                  exact ⟨rfl, rfl, rfl⟩
              obtain ⟨hw1, hw2, hw3⟩ := hwprops
              set chunk := (buf.drop written).take (sw.txCap - sw.txbuf.length) with hchunk
              have hchlen : written + chunk.length ≤ buf.length := by
                have : chunk.length ≤ (buf.drop written).length := by
                  simp [hchunk, List.length_take]
                simp only [List.length_drop] at this
                omega
              obtain ⟨hA, hB, hC, hD, hE⟩ := ih buf
                (txKick { sw with txbuf := sw.txbuf ++ chunk } (List.headD envw 0))
                (written + chunk.length) envw.tail n s' hchlen h
              obtain ⟨hk1, hk2, hk3, _⟩ :=
                txKick_spec { sw with txbuf := sw.txbuf ++ chunk } (List.headD envw 0)
              refine ⟨by omega, hB, ?_, by rw [hD, hk2, hw2], by
                intro hbl
                exact hE (by rw [hk2]; simpa [hw2] using hbl)⟩
              have hassoc : (txKick { sw with txbuf := sw.txbuf ++ chunk }
                    (List.headD envw 0)).txOut ++
                  (txKick { sw with txbuf := sw.txbuf ++ chunk } (List.headD envw 0)).txbuf =
                  (s.txOut ++ s.txbuf) ++ chunk := by
                rw [hk1]
                show sw.txOut ++ (sw.txbuf ++ chunk) = _
                rw [← List.append_assoc, hw1]
              have hsplit : (buf.drop written).take (n - written) =
                  chunk ++ (buf.drop (written + chunk.length)).take
                    (n - (written + chunk.length)) := by
                have hn : n - written = chunk.length + (n - (written + chunk.length)) := by
                  omega
                have h1 : List.take chunk.length (List.drop written buf) = chunk := by
                  rw [hchunk]
                  exact take_length_take (buf.drop written) (sw.txCap - sw.txbuf.length)
                rw [hn, List.take_add, h1, List.drop_drop]
              rw [hC, hassoc, hsplit, List.append_assoc]
      · simp only [Option.some.injEq, Prod.mk.injEq] at h
        obtain ⟨rfl, rfl⟩ := h
        next hge =>
          have : buf.length ≤ written := by omega
          exact ⟨le_refl _, hwr, by simp, rfl, fun _ => le_antisymm hwr this⟩

/-- In non-blocking mode the outer loop always returns within
`buf.length - written + 1` iterations, and makes progress whenever the
ring has room. -/
theorem writeLoop_nonblocking_some :
    ∀ (fuel : Nat) (buf : List Nat) (s : SerialState) (written : Nat) (env : List Nat),
      s.blocking = false → s.txbuf.length ≤ s.txCap → written ≤ buf.length →
      buf.length - written < fuel →
      ∃ n s', writeLoop buf s written env fuel = some (n, s') ∧
        (written < buf.length → s.txbuf.length < s.txCap → written < n) := by
  intro fuel
  induction fuel with
  | zero =>
      intro buf s written env hb hc hw hf
      omega
  | succ fuel ih =>
      intro buf s written env hb hc hw hf
      by_cases hlt : written < buf.length
      · by_cases hfull : s.txbuf.length = s.txCap
        · refine ⟨written, s, ?_, fun _ hnf => absurd hfull (by omega)⟩
          unfold writeLoop
          rw [if_pos hlt, if_pos (by simp [hfull, hb])]
        · have hroom : s.txbuf.length < s.txCap := lt_of_le_of_ne hc hfull
          set chunk := (buf.drop written).take (s.txCap - s.txbuf.length) with hchunk
          have hch1 : 1 ≤ chunk.length := by
            rw [hchunk]
            simp only [List.length_take, List.length_drop]
            omega
          have hchle : chunk.length ≤ buf.length - written := by
            rw [hchunk]
            simp only [List.length_take, List.length_drop]
            omega
          have hchcap : chunk.length ≤ s.txCap - s.txbuf.length := by
            rw [hchunk]
            simp [List.length_take]
          obtain ⟨hk1, hk2, hk3, hk4⟩ :=
            txKick_spec { s with txbuf := s.txbuf ++ chunk } (List.headD env 0)
          obtain ⟨n, s', heq, hprog⟩ := ih buf
            (txKick { s with txbuf := s.txbuf ++ chunk } (List.headD env 0))
            (written + chunk.length) env.tail
            (by rw [hk2]; exact hb)
            (by
              rw [hk3]
              refine le_trans hk4 ?_
              show (s.txbuf ++ chunk).length ≤ s.txCap
              rw [List.length_append]
              omega)
            (by omega) (by omega)
          have hrun : writeLoop buf s written env (fuel + 1) = some (n, s') := by
            unfold writeLoop
            rw [if_pos hlt, if_neg (by simp [hfull, hb]), if_neg (by simp [hfull])]
            exact heq
          obtain ⟨hA, _, _, _, _⟩ := writeLoop_spec fuel buf
            (txKick { s with txbuf := s.txbuf ++ chunk } (List.headD env 0))
            (written + chunk.length) env.tail n s' (by omega) heq
          exact ⟨n, s', hrun, fun _ _ => by omega⟩
      · refine ⟨written, s, ?_, fun hc2 _ => absurd hc2 hlt⟩
        unfold writeLoop
        rw [if_neg hlt]

end Serial

/-- C3: `write(buf, 0)` returns 0 with no state change; a blocking
write that returns has enqueued the whole buffer, in order, into the TX
byte stream (`txOut ++ txbuf`) and returns exactly `length` (never a
partial count, never `-EAGAIN`); a non-blocking write of a full ring
returns `-EAGAIN` with no state change, and of a ring with room returns
the count of enqueued bytes (at least 1, at most `length`), those bytes
being the buffer's prefix appended in order. -/
theorem write_blocking_completes :
    (∀ (s : Serial.SerialState) (env : List Nat) (fuel : Nat),
       Serial.write s [] env fuel = (.count 0, s)) ∧
    (∀ (s s' : Serial.SerialState) (buf env : List Nat) (fuel n : Nat),
       s.blocking = true →
       Serial.write s buf env fuel = (.count n, s') →
       n = buf.length ∧ s'.txOut ++ s'.txbuf = s.txOut ++ s.txbuf ++ buf) ∧
    (∀ (s : Serial.SerialState) (buf env : List Nat) (fuel : Nat),
       s.blocking = true → (Serial.write s buf env fuel).1 ≠ .eagain) ∧
    (∀ (s : Serial.SerialState) (buf env : List Nat) (fuel : Nat),
       s.blocking = false → buf ≠ [] → s.txbuf.length = s.txCap →
       Serial.write s buf env (fuel + 1) = (.eagain, s)) ∧
    (∀ (s : Serial.SerialState) (buf env : List Nat) (fuel : Nat),
       s.blocking = false → buf ≠ [] → s.txbuf.length < s.txCap → buf.length < fuel →
       ∃ n s', Serial.write s buf env fuel = (.count n, s') ∧ 1 ≤ n ∧ n ≤ buf.length ∧
         s'.txOut ++ s'.txbuf = s.txOut ++ s.txbuf ++ buf.take n) := by
  refine ⟨?_, ?_, ?_, ?_, ?_⟩
  · intro s env fuel
    rfl
  · intro s s' buf env fuel n hb h
    unfold Serial.write at h
    by_cases hnil : buf.length = 0
    · rw [if_pos hnil] at h
      simp only [Prod.mk.injEq, Serial.WriteResult.count.injEq] at h
      obtain ⟨rfl, rfl⟩ := h
      have : buf = [] := List.length_eq_zero.mp hnil
      subst this
      simp
    · rw [if_neg hnil] at h
      rcases hloop : Serial.writeLoop buf s 0 env fuel with _ | p
      · rw [hloop] at h
        simp at h
      · rcases p with ⟨w, sw⟩
        rw [hloop] at h
        dsimp only at h
        obtain ⟨_, _, hcons, _, hfull⟩ :=
          Serial.writeLoop_spec fuel buf s 0 env w sw (Nat.zero_le _) hloop
        have hwlen : w = buf.length := hfull hb
        split at h
        · simp only [Prod.mk.injEq, Serial.WriteResult.count.injEq] at h
          obtain ⟨rfl, rfl⟩ := h
          refine ⟨hwlen, ?_⟩
          rw [hcons]
          simp [hwlen]
        · simp at h
  · intro s buf env fuel hb
    unfold Serial.write
    by_cases hnil : buf.length = 0
    · rw [if_pos hnil]
      simp
    · rw [if_neg hnil]
      rcases hloop : Serial.writeLoop buf s 0 env fuel with _ | p
      · simp
      · rcases p with ⟨w, sw⟩
        obtain ⟨_, _, _, _, hfull⟩ :=
          Serial.writeLoop_spec fuel buf s 0 env w sw (Nat.zero_le _) hloop
        have hwlen : w = buf.length := hfull hb
        have hwnz : w ≠ 0 := by
          rw [hwlen]
          exact hnil
        dsimp only
        rw [if_pos hwnz]
        simp
  · intro s buf env fuel hb hnil hfull
    have hlen : buf.length ≠ 0 := by
      simpa [List.length_eq_zero] using hnil
    unfold Serial.write
    rw [if_neg hlen]
    have hloop : Serial.writeLoop buf s 0 env (fuel + 1) = some (0, s) := by
      unfold Serial.writeLoop
      rw [if_pos (by omega), if_pos (by simp [hfull, hb])]
    rw [hloop]
    simp
  · intro s buf env fuel hb hnil hroom hfuel
    have hlen : buf.length ≠ 0 := by
      simpa [List.length_eq_zero] using hnil
    obtain ⟨n, s', heq, hprog⟩ := Serial.writeLoop_nonblocking_some fuel buf s 0 env hb
      (le_of_lt hroom) (Nat.zero_le _) (by omega)
    have hpos : 0 < n := hprog (by omega) hroom
    obtain ⟨_, hle, hcons, _, _⟩ :=
      Serial.writeLoop_spec fuel buf s 0 env n s' (Nat.zero_le _) heq
    refine ⟨n, s', ?_, hpos, hle, ?_⟩
    · unfold Serial.write
      rw [if_neg hlen, heq]
      dsimp only
      rw [if_pos (by omega)]
    · simpa using hcons

/-- Closed instance of `write_blocking_completes`: a non-blocking write
to a full 2-byte ring returns `-EAGAIN` and leaves the state alone. -/
theorem write_blocking_completes_witness :
    Serial.write { Serial.initState 2 2 with txbuf := [1, 2], blocking := false } [9] [] 1 =
      (.eagain, { Serial.initState 2 2 with txbuf := [1, 2], blocking := false }) :=
  write_blocking_completes.2.2.2.1
    { Serial.initState 2 2 with txbuf := [1, 2], blocking := false } [9] [] 0
    rfl (by decide) rfl

/-! ## ISR state consistency -/

namespace Serial

/-- The RX ISR leaves its enable flag set unless it has just filled the
ring: `flag' = flag && !(ring became full)`. -/
theorem rx_irq_flag (s : SerialState) (hw : List Nat) :
    (rx_irq s hw).rx_irq_enabled =
      (s.rx_irq_enabled &&
        !decide ((s.rxbuf ++ hw.take (s.rxCap - s.rxbuf.length)).length = s.rxCap)) := by
  unfold rx_irq
  dsimp only
  split
  · next h => split <;> simp_all
  · next h => split <;> simp_all

/-- The TX ISR leaves its enable flag set unless it has just emptied
the ring: `flag' = flag && !(ring became empty)`. -/
theorem tx_irq_flag (s : SerialState) (a : Nat) :
    (tx_irq s a).tx_irq_enabled = (s.tx_irq_enabled && !(s.txbuf.drop a).isEmpty) := by
  unfold tx_irq
  dsimp only
  split
  · next h => split <;> simp_all
  · next h => split <;> simp_all

theorem rx_irq_stInv (s : SerialState) (hw : List Nat) (h : stInv s) :
    stInv (rx_irq s hw) := by
  obtain ⟨⟨hc1, hc2⟩, hi1, hi2⟩ := h
  refine ⟨⟨?_, ?_⟩, ?_, ?_⟩
  · rw [rx_irq_rxbuf, rx_irq_rxCap, List.length_append, List.length_take]
    omega
  · rw [rx_irq_txbuf, rx_irq_txCap]
    exact hc2
  · intro hflag
    rw [rx_irq_flag] at hflag
    rw [rx_irq_rxbuf, rx_irq_rxCap]
    rcases hen : s.rx_irq_enabled
    · have hfull := hi1 hen
      have hzero : s.rxCap - s.rxbuf.length = 0 := by omega
      simp [hzero, hfull]
    · rw [hen] at hflag
      simpa using hflag
  · intro hflag
    rw [rx_irq_tx_enabled] at hflag
    rw [rx_irq_txbuf]
    exact hi2 hflag

theorem tx_irq_stInv (s : SerialState) (a : Nat) (h : stInv s) :
    stInv (tx_irq s a) := by
  obtain ⟨⟨hc1, hc2⟩, hi1, hi2⟩ := h
  refine ⟨⟨?_, ?_⟩, ?_, ?_⟩
  · rw [tx_irq_rxbuf, tx_irq_rxCap]
    exact hc1
  · rw [tx_irq_txbuf, tx_irq_txCap, List.length_drop]
    omega
  · intro hflag
    rw [tx_irq_rx_enabled] at hflag
    rw [tx_irq_rxbuf, tx_irq_rxCap]
    exact hi1 hflag
  · intro hflag
    rw [tx_irq_flag] at hflag
    rw [tx_irq_txbuf]
    rcases hen : s.tx_irq_enabled
    · have hempty := hi2 hen
      simp [hempty]
    · rw [hen] at hflag
      simpa [List.isEmpty_iff] using hflag

theorem readWaitLoop_stInv :
    ∀ (env : List (List Nat)) (s s1 : SerialState),
      stInv s → readWaitLoop s env = some s1 → stInv s1 := by
  intro env
  induction env with
  | nil =>
      intro s s1 h heq
      unfold readWaitLoop at heq
      split at heq
      · simp at heq
      · simp only [Option.some.injEq] at heq
        subst heq
        exact h
  | cons hw rest ih =>
      intro s s1 h heq
      unfold readWaitLoop at heq
      split at heq
      · rcases hen : s.rx_irq_enabled <;> rw [hen] at heq
        · exact ih _ _ h (by simpa using heq)
        · exact ih _ _ (rx_irq_stInv s hw h) (by simpa using heq)
      · simp only [Option.some.injEq] at heq
        subst heq
        exact h

/-- The re-prime at the bottom of `read` restores the invariant from
the capacity bounds and the TX half alone: it either re-enables the RX
ISR (space remains) or leaves it disabled with the ring full. -/
theorem reprime_stInv (s2 : SerialState) (hw : List Nat)
    (hcap : capInv s2) (htx : s2.tx_irq_enabled = false → s2.txbuf = []) :
    stInv (if !s2.rx_irq_enabled then
        (if (rx_irq s2 hw).rxbuf.length < (rx_irq s2 hw).rxCap
         then { rx_irq s2 hw with rx_irq_enabled := true } else rx_irq s2 hw)
      else s2) := by
  obtain ⟨hc1, hc2⟩ := hcap
  rcases hen : s2.rx_irq_enabled
  · simp only [hen, Bool.not_false, if_true, ite_true]
    split
    · next hlt =>
        refine ⟨⟨?_, ?_⟩, ?_, ?_⟩
        · show (rx_irq s2 hw).rxbuf.length ≤ (rx_irq s2 hw).rxCap
          exact le_of_lt hlt
        · show (rx_irq s2 hw).txbuf.length ≤ (rx_irq s2 hw).txCap
          rw [rx_irq_txbuf, rx_irq_txCap]
          exact hc2
        · intro hf
          simp at hf
        · intro hf
          show (rx_irq s2 hw).txbuf = []
          rw [rx_irq_txbuf]
          apply htx
          have hf2 : (rx_irq s2 hw).tx_irq_enabled = false := hf
          rw [rx_irq_tx_enabled] at hf2
          exact hf2
    · next hge =>
        refine ⟨⟨?_, ?_⟩, ?_, ?_⟩
        · rw [rx_irq_rxbuf, rx_irq_rxCap, List.length_append, List.length_take]
          omega
        · rw [rx_irq_txbuf, rx_irq_txCap]
          exact hc2
        · intro _
          rw [rx_irq_rxbuf, rx_irq_rxCap] at hge ⊢
          rw [List.length_append, List.length_take] at hge ⊢
          omega
        · intro hf
          rw [rx_irq_tx_enabled] at hf
          rw [rx_irq_txbuf]
          exact htx hf
  · simp only [hen, Bool.not_true, ite_false, Bool.false_eq_true, if_false]
    refine ⟨⟨hc1, hc2⟩, ?_, htx⟩
    intro hf
    rw [hen] at hf
    simp at hf

theorem read_stInv (s : SerialState) (len : Nat) (env : List (List Nat)) (hw : List Nat)
    (h : stInv s) : stInv (read s len env hw).2 := by
  unfold read
  split
  · exact h
  split
  · exact h
  rcases hloop : readWaitLoop s env with _ | s1
  · exact h
  · obtain ⟨⟨hc1, hc2⟩, hi1, hi2⟩ := readWaitLoop_stInv env s s1 h hloop
    dsimp only
    exact reprime_stInv { s1 with rxbuf := s1.rxbuf.drop len } hw
      ⟨by simp only [List.length_drop]; omega, hc2⟩
      (fun hf => hi2 hf)

theorem txWaitLoop_stInv :
    ∀ (env : List Nat) (s s1 : SerialState) (env1 : List Nat),
      stInv s → txWaitLoop s env = some (s1, env1) → stInv s1 := by
  intro env
  induction env with
  | nil =>
      intro s s1 env1 h heq
      simp [txWaitLoop] at heq
  | cons a rest ih =>
      intro s s1 env1 h heq
      unfold txWaitLoop at heq
      rcases hen : s.tx_irq_enabled <;> rw [hen] at heq <;>
        simp only [if_true, if_false, ite_true, ite_false, Bool.false_eq_true] at heq
      · split at heq
        · exact ih _ _ _ h heq
        · simp only [Option.some.injEq, Prod.mk.injEq] at heq
          obtain ⟨rfl, rfl⟩ := heq
          exact h
      · split at heq
        · exact ih _ _ _ (tx_irq_stInv s a h) heq
        · simp only [Option.some.injEq, Prod.mk.injEq] at heq
          obtain ⟨rfl, rfl⟩ := heq
          exact tx_irq_stInv s a h

/-- The kick restores ISR state consistency whatever the TX flag state
at entry, given the capacity bounds and the RX half of the invariant. -/
theorem txKick_stInv (s : SerialState) (a : Nat) (hcap : capInv s)
    (hrx : s.rx_irq_enabled = false → s.rxbuf.length = s.rxCap)
    (htx : s.tx_irq_enabled = true → True) : stInv (txKick s a) := by
  obtain ⟨hc1, hc2⟩ := hcap
  unfold txKick
  dsimp only
  split
  · next hen =>
      split
      · next hne =>
          refine ⟨⟨?_, ?_⟩, ?_, ?_⟩
          · rw [tx_irq_rxbuf, tx_irq_rxCap]
            exact hc1
          · rw [tx_irq_txbuf, tx_irq_txCap, List.length_drop]
            omega
          · intro hf
            rw [tx_irq_rx_enabled] at hf
            rw [tx_irq_rxbuf, tx_irq_rxCap]
            exact hrx hf
          · intro hf
            simp at hf
      · next hne =>
          refine ⟨⟨?_, ?_⟩, ?_, ?_⟩
          · rw [tx_irq_rxbuf, tx_irq_rxCap]
            exact hc1
          · rw [tx_irq_txbuf, tx_irq_txCap, List.length_drop]
            omega
          · intro hf
            rw [tx_irq_rx_enabled] at hf
            rw [tx_irq_rxbuf, tx_irq_rxCap]
            exact hrx hf
          · intro _
            rw [tx_irq_txbuf]
            simpa [List.isEmpty_iff] using hne
  · next hen =>
      have hent : s.tx_irq_enabled = true := by
        rcases hx : s.tx_irq_enabled
        · rw [hx] at hen
          simp at hen
        · rfl
      exact ⟨⟨hc1, hc2⟩, hrx, fun hf => absurd hent (by rw [hf]; simp)⟩

theorem writeLoop_stInv :
    ∀ (fuel : Nat) (buf : List Nat) (s : SerialState) (written : Nat) (env : List Nat)
      (n : Nat) (s' : SerialState),
      stInv s → writeLoop buf s written env fuel = some (n, s') → stInv s' := by
  intro fuel
  induction fuel with
  | zero =>
      intro buf s written env n s' h heq
      simp [writeLoop] at heq
  | succ fuel ih =>
      intro buf s written env n s' h heq
      unfold writeLoop at heq
      split at heq
      · split at heq
        · simp only [Option.some.injEq, Prod.mk.injEq] at heq
          obtain ⟨rfl, rfl⟩ := heq
          exact h
        · rcases hwait : (if decide (s.txbuf.length = s.txCap) = true
              then txWaitLoop s env else some (s, env)) with _ | p
          · rw [hwait] at heq
            simp at heq
          · rcases p with ⟨sw, envw⟩
            rw [hwait] at heq
            dsimp only at heq
            have hsw : stInv sw := by
              split at hwait
              · exact txWaitLoop_stInv env s sw envw h hwait
              · simp only [Option.some.injEq, Prod.mk.injEq] at hwait
                obtain ⟨rfl, rfl⟩ := hwait
                exact h
            obtain ⟨⟨hw1, hw2⟩, hwi1, hwi2⟩ := hsw
            refine ih buf _ _ _ n s' ?_ heq
            refine txKick_stInv _ _ ⟨?_, ?_⟩ ?_ (fun _ => trivial)
            · exact hw1
            · show (sw.txbuf ++ _).length ≤ sw.txCap
              rw [List.length_append, List.length_take]
              simp only [List.length_drop]
              omega
            · exact hwi1
      · simp only [Option.some.injEq, Prod.mk.injEq] at heq
        obtain ⟨rfl, rfl⟩ := heq
        exact h

theorem write_stInv (s : SerialState) (buf env : List Nat) (fuel : Nat)
    (h : stInv s) : stInv (write s buf env fuel).2 := by
  unfold write
  split
  · exact h
  rcases hloop : writeLoop buf s 0 env fuel with _ | p
  · exact h
  · rcases p with ⟨w, sw⟩
    dsimp only
    split
    · exact writeLoop_stInv fuel buf s 0 env w sw h hloop
    · exact writeLoop_stInv fuel buf s 0 env w sw h hloop

end Serial

/-- C8: the endpoint invariant — the RX ISR is detached only while the
RX ring is full and the TX ISR is detached only while the TX ring is
empty (together with the ring capacity bounds) — holds after
construction and is preserved by `rx_irq`, `tx_irq`, `read` and
`write`. -/
theorem isr_state_consistency :
    (∀ rc tc, Serial.stInv (Serial.initState rc tc)) ∧
    (∀ (s : Serial.SerialState) (hw : List Nat),
       Serial.stInv s → Serial.stInv (Serial.rx_irq s hw)) ∧
    (∀ (s : Serial.SerialState) (a : Nat),
       Serial.stInv s → Serial.stInv (Serial.tx_irq s a)) ∧
    (∀ (s : Serial.SerialState) (len : Nat) (env : List (List Nat)) (hw : List Nat),
       Serial.stInv s → Serial.stInv (Serial.read s len env hw).2) ∧
    (∀ (s : Serial.SerialState) (buf env : List Nat) (fuel : Nat),
       Serial.stInv s → Serial.stInv (Serial.write s buf env fuel).2) := by
  refine ⟨?_, ?_, ?_, ?_, ?_⟩
  · intro rc tc
    exact ⟨⟨by simp [Serial.initState], by simp [Serial.initState]⟩,
      fun h => by simp [Serial.initState] at h, fun _ => rfl⟩
  · exact fun s hw => Serial.rx_irq_stInv s hw
  · exact fun s a => Serial.tx_irq_stInv s a
  · exact fun s len env hw => Serial.read_stInv s len env hw
  · exact fun s buf env fuel => Serial.write_stInv s buf env fuel

/-- Closed instance of `isr_state_consistency`: the invariant survives
an RX ISR burst that overfills a fresh 2-byte endpoint. -/
theorem isr_state_consistency_witness :
    Serial.stInv (Serial.rx_irq (Serial.initState 2 2) [1, 2, 3]) :=
  isr_state_consistency.2.1 (Serial.initState 2 2) [1, 2, 3] (by decide)

/-! ## The `poll` multiplexer -/

theorem land_lor_self (a x : Nat) : a &&& (x ||| a) = a := by
  apply Nat.eq_of_testBit_eq
  intro i
  simp only [Nat.testBit_and, Nat.testBit_or]
  rcases h1 : a.testBit i <;> rcases h2 : x.testBit i <;> simp

theorem land_land_self (a m : Nat) : (a &&& m) &&& m = a &&& m := by
  rw [Nat.land_assoc]
  congr 1
  apply Nat.eq_of_testBit_eq
  intro i
  simp only [Nat.testBit_and]
  rcases h1 : m.testBit i <;> simp

namespace MPoll

open Serial (POLLIN POLLOUT POLLERR POLLHUP POLLNVAL)

/-- Per-entry facts of the scan body: the handle and requested events
are untouched, a null handle yields `POLLNVAL`, the written `revents`
is contained in `events | POLLERR | POLLHUP | POLLNVAL`, and the count
bumps exactly on a non-zero `revents`. -/
theorem scanEntry_spec (round : Nat) (timeout : Int) (e : Pollfh) (count : Nat) (sw : Bool) :
    (scanEntry round timeout e count sw).1.fh = e.fh ∧
    (scanEntry round timeout e count sw).1.events = e.events ∧
    (e.fh = none → (scanEntry round timeout e count sw).1.revents = POLLNVAL) ∧
    (scanEntry round timeout e count sw).1.revents &&&
      (e.events ||| POLLERR ||| POLLHUP ||| POLLNVAL) =
      (scanEntry round timeout e count sw).1.revents ∧
    (scanEntry round timeout e count sw).2.1 =
      (if (scanEntry round timeout e count sw).1.revents ≠ 0 then count + 1 else count) := by
  rcases e with ⟨fh, events, revents⟩
  rcases fh with _ | fh
  · unfold scanEntry
    dsimp only
    exact ⟨rfl, rfl, fun _ => rfl, land_lor_self _ _, rfl⟩
  · unfold scanEntry
    dsimp only
    refine ⟨rfl, rfl, fun hc => by simp at hc, ?_, rfl⟩
    rcases hsw : sw
    · simp only [hsw, Bool.false_eq_true, if_false, ite_false, Bool.not_false, if_true,
        ite_true]
      exact land_land_self _ _
    · simp only [hsw, if_true, ite_true]
      split
      · simp only [Bool.not_false, if_true, ite_true]
        exact land_land_self _ _
      · simp only [Bool.not_true, if_false, ite_false, Bool.false_eq_true]
        exact land_land_self _ _

/-- Unfolding equation for the scan over a cons cell. -/
theorem scanList_cons (round : Nat) (timeout : Int) (e : Pollfh) (rest : List Pollfh)
    (count : Nat) (sw : Bool) :
    scanList round timeout (e :: rest) count sw =
      ((scanEntry round timeout e count sw).1 ::
        (scanList round timeout rest (scanEntry round timeout e count sw).2.1
          (scanEntry round timeout e count sw).2.2).1,
       (scanList round timeout rest (scanEntry round timeout e count sw).2.1
          (scanEntry round timeout e count sw).2.2).2.1,
       (scanList round timeout rest (scanEntry round timeout e count sw).2.1
          (scanEntry round timeout e count sw).2.2).2.2) := rfl

/-- The scan writes every entry's `revents` within its allowed mask,
gives null handles `POLLNVAL`, and returns `count` plus the number of
entries with non-zero `revents`. -/
theorem scanList_spec :
    ∀ (entries : List Pollfh) (round : Nat) (timeout : Int) (count : Nat) (sw : Bool),
      (scanList round timeout entries count sw).2.1 =
        count + ((scanList round timeout entries count sw).1.filter
          (fun e => e.revents != 0)).length ∧
      (∀ e' ∈ (scanList round timeout entries count sw).1,
        (e'.fh = none → e'.revents = POLLNVAL) ∧
        e'.revents &&& (e'.events ||| POLLERR ||| POLLHUP ||| POLLNVAL) = e'.revents) := by
  intro entries
  induction entries with
  | nil =>
      intro round timeout count sw
      exact ⟨rfl, fun e' he' => absurd he' (List.not_mem_nil e')⟩
  | cons e rest ih =>
      intro round timeout count sw
      obtain ⟨h1, h2, h3, h4, h5⟩ := scanEntry_spec round timeout e count sw
      obtain ⟨ih1, ih2⟩ := ih round timeout (scanEntry round timeout e count sw).2.1
        (scanEntry round timeout e count sw).2.2
      rw [scanList_cons]
      dsimp only
      constructor
      · rw [(ih round timeout (scanEntry round timeout e count sw).2.1
            (scanEntry round timeout e count sw).2.2).1, h5]
        simp only [List.filter_cons]
        by_cases hz : (scanEntry round timeout e count sw).1.revents = 0
        · have hb : ((scanEntry round timeout e count sw).1.revents != 0) = false := by
            simp [hz]
          rw [hb]
          rw [if_neg (show ¬(false = true) by simp)]
          rw [if_neg (show ¬((scanEntry round timeout e count sw).1.revents ≠ 0) from
            fun hc => hc hz)]
        · have hb : ((scanEntry round timeout e count sw).1.revents != 0) = true := by
            simpa using hz
          rw [hb, if_pos rfl, if_pos hz, List.length_cons]
          omega
      · intro x hx
        rcases List.mem_cons.mp hx with rfl | hx
        · refine ⟨fun hnone => h3 (by rw [← h1]; exact hnone), ?_⟩
          rw [← h2] at h4
          exact h4
        · exact ih2 x hx

/-- Whatever scan the outer loop last performed, the returned entries
carry the per-entry guarantees and the returned count tallies the
non-zero `revents`. -/
theorem pollLoop_spec :
    ∀ (fuel round : Nat) (entries : List Pollfh) (timeout : Int) (sw : Bool)
      (env : List WaitEv) (out : List Pollfh × Nat),
      pollLoop round entries timeout 0 sw env fuel = some out →
      (∀ e' ∈ out.1, (e'.fh = none → e'.revents = POLLNVAL) ∧
        e'.revents &&& (e'.events ||| POLLERR ||| POLLHUP ||| POLLNVAL) = e'.revents) ∧
      out.2 = (out.1.filter (fun e => e.revents != 0)).length := by
  intro fuel
  induction fuel with
  | zero =>
      intro round entries timeout sw env out h
      simp [pollLoop] at h
  | succ fuel ih =>
      intro round entries timeout sw env out h
      obtain ⟨hcnt, hprops⟩ := scanList_spec entries round timeout 0 sw
      unfold pollLoop at h
      rcases hscan : scanList round timeout entries 0 sw with ⟨entries1, count1, sw1⟩
      rw [hscan] at h hcnt hprops
      dsimp only at h hcnt hprops
      split at h
      · simp only [Option.some.injEq] at h
        subst h
        exact ⟨hprops, by simpa using hcnt⟩
      · next hcond =>
          have hc0 : count1 = 0 := by
            rcases not_or.mp hcond with ⟨hgt, _⟩
            omega
          rcases env with _ | ⟨ev, env⟩
          · simp at h
          · rw [hc0] at h
            rcases hsw : sw1 <;> rw [hsw] at h <;>
              simp only [if_true, if_false, ite_true, ite_false, Bool.false_eq_true] at h
            · split at h
              · simp only [Option.some.injEq] at h
                subst h
                exact ⟨hprops, by simpa [hc0] using hcnt⟩
              · exact ih (round + 1) entries1 timeout false env out h
            · split at h
              · split at h
                · exact ih (round + 1) entries1 0 true env out h
                · exact ih (round + 1) entries1 timeout true env out h
              · exact ih (round + 1) entries1 timeout true env out (by simpa using h)

end MPoll

/-- C7: for the `poll` multiplexer — a zero timeout performs exactly one
scan of the handles and returns its result without consuming any
blocking step; whenever `poll` returns, an entry with a null device
pointer carries `revents = POLLNVAL`, every entry's `revents` is
contained in its requested events united with
`POLLERR | POLLHUP | POLLNVAL`, and the return value is the number of
entries with non-zero `revents`. -/
theorem poll_multiplexer_spec :
    (∀ (entries : List MPoll.Pollfh) (env : List MPoll.WaitEv) (fuel : Nat),
       MPoll.poll entries 0 env (fuel + 1) =
         some ((MPoll.scanList 0 0 entries 0 true).1,
           (MPoll.scanList 0 0 entries 0 true).2.1)) ∧
    (∀ (entries : List MPoll.Pollfh) (timeout : Int) (env : List MPoll.WaitEv)
       (fuel : Nat) (out : List MPoll.Pollfh × Nat),
       MPoll.poll entries timeout env fuel = some out →
       (∀ e' ∈ out.1,
         (e'.fh = none → e'.revents = Serial.POLLNVAL) ∧
         e'.revents &&& (e'.events ||| Serial.POLLERR ||| Serial.POLLHUP |||
           Serial.POLLNVAL) = e'.revents) ∧
       out.2 = (out.1.filter (fun e => e.revents != 0)).length) := by
  constructor
  · intro entries env fuel
    unfold MPoll.poll MPoll.pollLoop
    rcases hscan : MPoll.scanList 0 0 entries 0 true with ⟨e1, c1, s1⟩
    dsimp only
    rw [if_pos (Or.inr rfl)]
  · intro entries timeout env fuel out h
    exact MPoll.pollLoop_spec fuel 0 entries timeout true env out h

/-- Closed instance of `poll_multiplexer_spec`: polling an empty handle
array with a zero timeout returns 0 ready entries. -/
theorem poll_multiplexer_spec_witness :
    (0 : Nat) = (([] : List MPoll.Pollfh).filter (fun e => e.revents != 0)).length :=
  (poll_multiplexer_spec.2 [] 0 [] 1 ([], 0) rfl).2

/-! ## The RTOS wait list: removal and the waiter-node invariant -/

namespace CVCS

@[simp] theorem store_heap_same (s : State) (p : Nat) (v : Waiter) :
    ((s.store p v).heap p) = v := by
  simp [State.store]

theorem store_heap_other (s : State) (p q : Nat) (v : Waiter) (h : q ≠ p) :
    ((s.store p v).heap q) = s.heap q := by
  simp [State.store, Function.update_noteq h]

@[simp] theorem store_waitList (s : State) (p : Nat) (v : Waiter) :
    (s.store p v).waitList = s.waitList := by
  simp [State.store]

/-- Heap-level behaviour of `_remove_wait_list` on a node with distinct
neighbours: the head pointer advances to `nd`, `p.next` and `nd.prev`
are re-linked around `w`, `w` is cleared, and nothing else changes. -/
theorem removeWaitList_heap (s : State) (w p nd : Nat)
    (hp : (s.heap w).prev = some p) (hn : (s.heap w).next = some nd)
    (hwp : w ≠ p) (hwn : w ≠ nd) :
    (removeWaitList s w).waitList = some nd ∧
    (removeWaitList s w).heap w =
      { s.heap w with next := none, prev := none, inList := false } ∧
    (removeWaitList s w).heap p =
      (if p = nd then { s.heap p with next := some nd, prev := some p }
       else { s.heap p with next := some nd }) ∧
    (removeWaitList s w).heap nd =
      (if p = nd then { s.heap p with next := some nd, prev := some p }
       else { s.heap nd with prev := some p }) ∧
    (∀ x, x ≠ w → x ≠ p → x ≠ nd → (removeWaitList s w).heap x = s.heap x) := by
  have hpw : p ≠ w := Ne.symm hwp
  have hnw : nd ≠ w := Ne.symm hwn
  by_cases hpn : p = nd
  · subst hpn
    refine ⟨?_, ?_, ?_, ?_, ?_⟩
    · simp [removeWaitList, hp, hn, State.store, Function.update, hwp, hpw]
    · simp [removeWaitList, hp, hn, State.store, Function.update, hwp, hpw]
    · simp [removeWaitList, hp, hn, State.store, Function.update, hwp, hpw]
    · simp [removeWaitList, hp, hn, State.store, Function.update, hwp, hpw]
    · intro x hxw hxp _
      simp [removeWaitList, hp, hn, State.store, Function.update, hwp, hpw, hxw, hxp]
  · refine ⟨?_, ?_, ?_, ?_, ?_⟩
    · simp [removeWaitList, hp, hn, State.store, Function.update, hwp, hpw, hwn, hnw, hpn]
    · simp [removeWaitList, hp, hn, State.store, Function.update, hwp, hpw, hwn, hnw, hpn]
    · simp [removeWaitList, hp, hn, State.store, Function.update, hwp, hpw, hwn, hnw, hpn,
        Ne.symm hpn]
    · simp [removeWaitList, hp, hn, State.store, Function.update, hwp, hpw, hwn, hnw, hpn,
        Ne.symm hpn]
    · intro x hxw hxp hxn
      simp [removeWaitList, hp, hn, State.store, Function.update, hxw, hxp, hxn, hwp, hwn,
        hpw, hnw, hpn, Ne.symm hpn]

/-- Heap-level behaviour of `_remove_wait_list` on a self-linked (sole)
node: the head pointer becomes `NULL`, the node is cleared, and nothing
else changes. -/
theorem removeWaitList_heap_single (s : State) (w : Nat)
    (hp : (s.heap w).prev = some w) (hn : (s.heap w).next = some w) :
    (removeWaitList s w).waitList = none ∧
    (removeWaitList s w).heap w =
      { s.heap w with next := none, prev := none, inList := false } ∧
    (∀ x, x ≠ w → (removeWaitList s w).heap x = s.heap x) := by
  refine ⟨?_, ?_, ?_⟩
  · simp [removeWaitList, hp, hn, State.store, Function.update]
  · simp [removeWaitList, hp, hn, State.store, Function.update]
  · intro x hxw
    simp [removeWaitList, hp, hn, State.store, Function.update, hxw]

/-- Pointwise corollaries of `removeWaitList_heap`: the fields every
well-formedness argument needs. -/
theorem removeWaitList_fields (s : State) (w p nd : Nat)
    (hp : (s.heap w).prev = some p) (hn : (s.heap w).next = some nd)
    (hwp : w ≠ p) (hwn : w ≠ nd) :
    (removeWaitList s w).waitList = some nd ∧
    ((removeWaitList s w).heap w).inList = false ∧
    ((removeWaitList s w).heap p).next = some nd ∧
    ((removeWaitList s w).heap nd).prev = some p ∧
    (∀ x, x ≠ w → x ≠ p → ((removeWaitList s w).heap x).next = (s.heap x).next) ∧
    (∀ y, y ≠ w → y ≠ nd → ((removeWaitList s w).heap y).prev = (s.heap y).prev) ∧
    (∀ x, x ≠ w → ((removeWaitList s w).heap x).inList = (s.heap x).inList) := by
  obtain ⟨h1, h2, h3, h4, h5⟩ := removeWaitList_heap s w p nd hp hn hwp hwn
  refine ⟨h1, by rw [h2], ?_, ?_, ?_, ?_, ?_⟩
  · rw [h3]
    split <;> rfl
  · rw [h4]
    split <;> rfl
  · intro x hxw hxp
    by_cases hxn : x = nd
    · subst hxn
      rw [h4]
      rw [if_neg (fun hc => hxp hc.symm)]
    · rw [h5 x hxw hxp hxn]
  · intro y hyw hyn
    by_cases hyp : y = p
    · subst hyp
      rw [h3]
      rw [if_neg (fun hc => hyn hc)]
    · rw [h5 y hyw hyp hyn]
  · intro x hxw
    by_cases hxp : x = p
    · subst hxp
      rw [h3]
      split <;> rfl
    · by_cases hxn : x = nd
      · subst hxn
        rw [h4]
        split
        · next hpx => simp [← hpx]
        · rfl
      · rw [h5 x hxw hxp hxn]

/-- In a duplicate-free list the last element does not occur before the
last position. -/
theorem getLast_not_mem_dropLast {α : Type} (l : List α) (hne : l ≠ [])
    (hnd : l.Nodup) : l.getLast hne ∉ l.dropLast := by
  intro hmem
  have hsplit : l.dropLast ++ [l.getLast hne] = l := List.dropLast_append_getLast hne
  rw [← hsplit] at hnd
  rw [List.nodup_append] at hnd
  exact hnd.2.2 hmem (by simp)

/-- Pointer chains transfer between states that agree on the `next`
field of every non-final node and the `prev` field of every non-initial
node of the chain. -/
theorem chain_transfer (s s' : State) :
    ∀ (l : List Nat),
      List.Chain' (linked s) l →
      (∀ x ∈ l.dropLast, (s'.heap x).next = (s.heap x).next) →
      (∀ y ∈ l.tail, (s'.heap y).prev = (s.heap y).prev) →
      List.Chain' (linked s') l := by
  intro l
  induction l with
  | nil => intro _ _ _; trivial
  | cons a rest ih =>
      intro hch hnext hprev
      rcases rest with _ | ⟨b, rest'⟩
      · simp
      · rw [List.chain'_cons] at hch ⊢
        obtain ⟨hab, htail⟩ := hch
        refine ⟨⟨?_, ?_⟩, ?_⟩
        · rw [hnext a (by simp)]
          exact hab.1
        · rw [hprev b (by simp)]
          exact hab.2
        · refine ih htail ?_ ?_
          · intro x hx
            refine hnext x ?_
            rcases rest' with _ | ⟨c, rest''⟩
            · simp at hx
            · simp only [List.dropLast_cons₂, List.mem_cons] at hx ⊢
              tauto
          · intro y hy
            exact hprev y (by simp [List.mem_cons]; right; exact hy)

/-- A chain ending in a single appended element splits into the chain
without it plus the final link. -/
theorem chain_concat (s : State) :
    ∀ (xs : List Nat) (a b : Nat),
      List.Chain (linked s) a (xs ++ [b]) ↔
      List.Chain (linked s) a xs ∧
        linked s ((a :: xs).getLast (List.cons_ne_nil a xs)) b := by
  intro xs
  induction xs with
  | nil =>
      intro a b
      simp [List.chain_cons]
  | cons c rest ih =>
      intro a b
      rw [List.cons_append, List.chain_cons, List.chain_cons, ih c b]
      constructor
      · rintro ⟨h1, h2, h3⟩
        exact ⟨⟨h1, h2⟩, by
          rw [List.getLast_cons_cons]
          exact h3⟩
      · rintro ⟨⟨h1, h2⟩, h3⟩
        refine ⟨h1, h2, ?_⟩
        rw [List.getLast_cons_cons] at h3
        exact h3

/-- Removal from a well-formed wait list: `_remove_wait_list` detaches
exactly the requested node, leaves the remaining nodes on a well-formed
cycle (rotated to start at the removed node's successor, as the code
sets `_wait_list = waiter->next`), and clears the node's `in_list`. -/
theorem removeWaitList_wf (s : State) (l : List Nat) (w : Nat)
    (hwf : wfList s l) (hw : w ∈ l) :
    ∃ l', wfList (removeWaitList s w) l' ∧ w ∉ l' ∧
      (∀ x, x ∈ l' ↔ x ∈ l ∧ x ≠ w) := by
  obtain ⟨hnd, hiff, hrest⟩ := hwf
  rcases l with _ | ⟨h, t⟩
  · simp at hw
  obtain ⟨hhead, hchain⟩ := hrest
  by_cases hhw : w = h
  · subst hhw
    rcases t with _ | ⟨nd, t'⟩
    · -- sole waiter: the cycle was the self-linked node
      rw [List.nil_append, List.chain_cons] at hchain
      obtain ⟨hww, -⟩ := hchain
      obtain ⟨f1, f2, f3⟩ := removeWaitList_heap_single s w hww.2 hww.1
      refine ⟨[], ⟨List.nodup_nil, ?_, ?_⟩, by simp, by simp⟩
      · intro x
        simp only [List.not_mem_nil, iff_false]
        by_cases hxw : x = w
        · subst hxw
          rw [f2]
          simp
        · rw [f3 x hxw]
          intro hc
          have hx := (hiff x).mp hc
          simp only [List.mem_singleton] at hx
          exact hxw hx
      · exact f1
    · -- head removal with at least one further waiter
      rw [List.cons_append, List.chain_cons] at hchain
      obtain ⟨hwnd, hrest2⟩ := hchain
      rw [chain_concat] at hrest2
      obtain ⟨hmid, hlast⟩ := hrest2
      have hwmem : w ∉ (nd :: t') := (List.nodup_cons.mp hnd).1
      have hnd2 : (nd :: t').Nodup := (List.nodup_cons.mp hnd).2
      have hwn : w ≠ nd := fun hc => hwmem (hc ▸ List.mem_cons_self nd t')
      have hpmem : (nd :: t').getLast (List.cons_ne_nil nd t') ∈ (nd :: t') :=
        List.getLast_mem _
      have hwp : w ≠ (nd :: t').getLast (List.cons_ne_nil nd t') :=
        fun hc => hwmem (hc ▸ hpmem)
      obtain ⟨fWL, fWin, fPnext, fNDprev, fNext, fPrev, fIn⟩ :=
        removeWaitList_fields s w _ nd hlast.2 hwnd.1 hwp hwn
      refine ⟨nd :: t', ⟨hnd2, ?_, fWL, ?_⟩, hwmem, ?_⟩
      · intro x
        by_cases hxw : x = w
        · subst hxw
          rw [fWin]
          simp [hwmem]
        · rw [fIn x hxw, hiff x]
          simp [List.mem_cons, hxw]
      · have htrans : List.Chain' (linked (removeWaitList s w)) (nd :: t') := by
          refine chain_transfer s _ (nd :: t') hmid ?_ ?_
          · intro x hx
            refine fNext x ?_ ?_
            · exact fun hc => hwmem (hc ▸ List.mem_of_mem_dropLast hx)
            · exact fun hc =>
                getLast_not_mem_dropLast _ (List.cons_ne_nil nd t') hnd2 (hc ▸ hx)
          · intro y hy
            refine fPrev y ?_ ?_
            · exact fun hc => hwmem (hc ▸ List.mem_cons_of_mem nd hy)
            · exact fun hc => (List.nodup_cons.mp hnd2).1 (hc ▸ hy)
        have happ : List.Chain' (linked (removeWaitList s w)) ((nd :: t') ++ [nd]) := by
          rw [List.chain'_append]
          refine ⟨htrans, List.chain'_singleton nd, ?_⟩
          intro x hx y hy
          rw [List.getLast?_eq_getLast _ (List.cons_ne_nil nd t')] at hx
          simp only [Option.mem_def, Option.some.injEq] at hx
          simp only [List.head?_cons, Option.mem_def, Option.some.injEq] at hy
          subst hx
          subst hy
          exact ⟨fPnext, fNDprev⟩
        rw [List.cons_append] at happ
        exact happ
      · intro x
        simp only [List.mem_cons]
        constructor
        · intro hx
          refine ⟨Or.inr hx, fun hc => hwmem ?_⟩
          rw [← hc]
          exact List.mem_cons.mpr hx
        · rintro ⟨hx | hx, hxw⟩
          · exact absurd hx hxw
          · exact hx
  · -- w sits strictly inside the list
    have hwt : w ∈ t := by
      rcases List.mem_cons.mp hw with hc | hc
      · exact absurd hc hhw
      · exact hc
    obtain ⟨t₁, t₂, rfl⟩ := List.append_of_mem hwt
    have hchain2 : List.Chain (linked s) h (t₁ ++ w :: (t₂ ++ [h])) := by
      simpa [List.append_assoc] using hchain
    rw [List.chain_split] at hchain2
    obtain ⟨hc1, hc2⟩ := hchain2
    rw [chain_concat] at hc1
    obtain ⟨hct1, hpw⟩ := hc1
    obtain ⟨nd, rest₂, ht₂h⟩ := List.exists_cons_of_ne_nil
      (show t₂ ++ [h] ≠ [] by simp)
    rw [ht₂h, List.chain_cons] at hc2
    obtain ⟨hwnd, hcr⟩ := hc2
    have hnd0 := hnd
    rw [List.nodup_cons] at hnd0
    obtain ⟨hhmem, hndt⟩ := hnd0
    rw [List.nodup_middle, List.nodup_cons] at hndt
    obtain ⟨hwmem12, hnd12⟩ := hndt
    have hhT1 : h ∉ t₁ := fun hc => hhmem (by simp [hc])
    have hhT2 : h ∉ t₂ := fun hc => hhmem (by simp [hc])
    have hwT1 : w ∉ t₁ := fun hc => hwmem12 (by simp [hc])
    have hwT2 : w ∉ t₂ := fun hc => hwmem12 (by simp [hc])
    have hndT1 : t₁.Nodup := (List.nodup_append.mp hnd12).1
    have hndT2 : t₂.Nodup := (List.nodup_append.mp hnd12).2.1
    have hdisj : ∀ x, x ∈ t₁ → x ∈ t₂ → False := by
      intro x hx1 hx2
      exact (List.nodup_append.mp hnd12).2.2 hx1 hx2
    have hpmem : (h :: t₁).getLast (List.cons_ne_nil h t₁) ∈ h :: t₁ :=
      List.getLast_mem _
    have hwp : w ≠ (h :: t₁).getLast (List.cons_ne_nil h t₁) := by
      intro hc
      rcases List.mem_cons.mp hpmem with hc2 | hc2
      · exact hhw (hc.trans hc2)
      · exact hwT1 (hc ▸ hc2)
    have hndmem : nd ∈ t₂ ++ [h] := by
      rw [ht₂h]
      simp
    have hwn : w ≠ nd := by
      intro hc
      rcases List.mem_append.mp hndmem with hc2 | hc2
      · exact hwT2 (hc ▸ hc2)
      · simp only [List.mem_singleton] at hc2
        exact hhw (hc.trans hc2)
    obtain ⟨fWL, fWin, fPnext, fNDprev, fNext, fPrev, fIn⟩ :=
      removeWaitList_fields s w _ nd hpw.2 hwnd.1 hwp hwn
    have hl' : (t₂ ++ [h]) ++ t₁ = nd :: (rest₂ ++ t₁) := by
      rw [ht₂h, List.cons_append]
    have hndl' : ((t₂ ++ [h]) ++ t₁).Nodup := by
      rw [List.nodup_append, List.nodup_append]
      refine ⟨⟨hndT2, List.nodup_singleton h, ?_⟩, hndT1, ?_⟩
      · intro x hx2 hxh
        simp only [List.mem_singleton] at hxh
        exact hhT2 (hxh ▸ hx2)
      · intro x hx hx1
        rcases List.mem_append.mp hx with hc | hc
        · exact hdisj x hx1 hc
        · simp only [List.mem_singleton] at hc
          exact hhT1 (hc ▸ hx1)
    have hwl' : w ∉ nd :: (rest₂ ++ t₁) := by
      rw [← hl']
      intro hc
      rcases List.mem_append.mp hc with hc2 | hc2
      · rcases List.mem_append.mp hc2 with hc3 | hc3
        · exact hwT2 hc3
        · simp only [List.mem_singleton] at hc3
          exact hhw hc3
      · exact hwT1 hc2
    have hmemiff : ∀ x, x ≠ w →
        (x ∈ nd :: (rest₂ ++ t₁) ↔ x ∈ h :: (t₁ ++ w :: t₂)) := by
      intro x hxw
      rw [← hl']
      simp only [List.mem_append, List.mem_cons, List.not_mem_nil, or_false]
      tauto
    have hndnd : nd ∉ rest₂ := by
      have : (nd :: rest₂).Nodup := by
        rw [← ht₂h, List.nodup_append]
        refine ⟨hndT2, List.nodup_singleton h, ?_⟩
        intro x hx2 hxh
        simp only [List.mem_singleton] at hxh
        exact hhT2 (hxh ▸ hx2)
      exact (List.nodup_cons.mp this).1
    refine ⟨nd :: (rest₂ ++ t₁), ⟨by rw [← hl']; exact hndl', ?_, fWL, ?_⟩, hwl', ?_⟩
    · intro x
      by_cases hxw : x = w
      · subst hxw
        rw [fWin]
        simp [hwl']
      · rw [fIn x hxw, hiff x, hmemiff x hxw]
    · -- the chain of the rotated remainder
      have hdropT2 : (nd :: rest₂).dropLast = t₂ := by
        rw [← ht₂h, List.dropLast_concat]
      have htrans2 : List.Chain' (linked (removeWaitList s w)) (nd :: rest₂) := by
        refine chain_transfer s _ (nd :: rest₂) hcr ?_ ?_
        · intro x hx
          rw [hdropT2] at hx
          refine fNext x (fun hc => hwT2 (hc ▸ hx)) ?_
          intro hc
          rcases List.mem_cons.mp hpmem with hc2 | hc2
          · exact hhT2 ((hc.trans hc2) ▸ hx)
          · exact hdisj x (hc ▸ hc2) hx
        · intro y hy
          have hymem : y ∈ t₂ ++ [h] := by
            rw [ht₂h]
            exact List.mem_cons_of_mem nd hy
          refine fPrev y ?_ (fun hc => hndnd (hc ▸ hy))
          intro hc
          rcases List.mem_append.mp hymem with hc2 | hc2
          · exact hwT2 (hc ▸ hc2)
          · simp only [List.mem_singleton] at hc2
            exact hhw (hc ▸ hc2)
      have hct1' : List.Chain' (linked s) t₁ :=
        List.Chain'.tail (l := h :: t₁) hct1
      have ht1chain : List.Chain' (linked (removeWaitList s w)) t₁ := by
        refine chain_transfer s _ t₁ hct1' ?_ ?_
        · intro x hx
          have hxmem : x ∈ t₁ := List.mem_of_mem_dropLast hx
          refine fNext x (fun hc => hwT1 (hc ▸ hxmem)) ?_
          intro hc
          rcases ht₁e : t₁ with _ | ⟨a, t₁'⟩
          · rw [ht₁e] at hx
            simp at hx
          · have hpt : (h :: t₁).getLast (List.cons_ne_nil h t₁) =
                t₁.getLast (by rw [ht₁e]; simp) := List.getLast_cons _
            rw [hpt] at hc
            have := getLast_not_mem_dropLast t₁ (by rw [ht₁e]; simp) hndT1
            exact this (hc ▸ hx)
        · intro y hy
          have hymem : y ∈ t₁ := List.mem_of_mem_tail hy
          refine fPrev y (fun hc => hwT1 (hc ▸ hymem)) ?_
          intro hc
          rcases List.mem_append.mp hndmem with hc2 | hc2
          · exact hdisj y hymem (hc ▸ hc2)
          · simp only [List.mem_singleton] at hc2
            exact hhT1 ((hc.trans hc2) ▸ hymem)
      have hgl : ∀ x ∈ t₁.getLast?, x = (h :: t₁).getLast (List.cons_ne_nil h t₁) := by
        rcases t₁ with _ | ⟨a, t₁'⟩
        · intro x hx
          simp at hx
        · intro x hx
          simp only [Option.mem_def] at hx
          rw [List.getLast?_eq_getLast _ (List.cons_ne_nil a t₁')] at hx
          simp only [Option.some.injEq] at hx
          rw [List.getLast_cons (List.cons_ne_nil a t₁')]
          exact hx.symm
      have ht1app : List.Chain' (linked (removeWaitList s w)) (t₁ ++ [nd]) := by
        rw [List.chain'_append]
        refine ⟨ht1chain, List.chain'_singleton nd, ?_⟩
        intro x hx y hy
        simp only [List.head?_cons, Option.mem_def, Option.some.injEq] at hy
        subst hy
        have hx' := hgl x hx
        subst hx'
        exact ⟨fPnext, fNDprev⟩
      have hjunc2 : ∀ y ∈ (t₁ ++ [nd]).head?, linked (removeWaitList s w) h y := by
        rcases t₁ with _ | ⟨a, t₁'⟩
        · intro y hy
          simp only [List.nil_append, List.head?_cons, Option.mem_def,
            Option.some.injEq] at hy
          subst hy
          exact ⟨fPnext, fNDprev⟩
        · intro y hy
          simp only [List.cons_append, List.head?_cons, Option.mem_def,
            Option.some.injEq] at hy
          subst hy
          have hha : linked s h a := (List.chain_cons.mp hct1).1
          have hpt1 : (h :: a :: t₁').getLast (List.cons_ne_nil h (a :: t₁')) ∈
              a :: t₁' := by
            rw [List.getLast_cons (List.cons_ne_nil a t₁')]
            exact List.getLast_mem _
          constructor
          · have hhp : h ≠ (h :: a :: t₁').getLast (List.cons_ne_nil h (a :: t₁')) := by
              intro hc
              exact hhT1 (hc ▸ hpt1)
            rw [fNext h (fun hc => hhw hc.symm) hhp]
            exact hha.1
          · have haw : a ≠ w := fun hc => hwT1 (hc ▸ List.mem_cons_self a t₁')
            have han : a ≠ nd := by
              intro hc
              rcases List.mem_append.mp hndmem with hc2 | hc2
              · exact hdisj a (List.mem_cons_self a t₁') (hc ▸ hc2)
              · simp only [List.mem_singleton] at hc2
                exact hhT1 ((hc.trans hc2) ▸ List.mem_cons_self a t₁')
            rw [fPrev a haw han]
            exact hha.2
      have hfull : List.Chain' (linked (removeWaitList s w))
          ((t₂ ++ [h]) ++ (t₁ ++ [nd])) := by
        rw [List.chain'_append]
        refine ⟨by rw [ht₂h]; exact htrans2, ht1app, ?_⟩
        intro x hx y hy
        simp only [Option.mem_def] at hx
        rw [List.getLast?_concat] at hx
        simp only [Option.some.injEq] at hx
        subst hx
        exact hjunc2 y hy
      have hshape : (t₂ ++ [h]) ++ (t₁ ++ [nd]) = nd :: ((rest₂ ++ t₁) ++ [nd]) := by
        rw [ht₂h]
        simp [List.cons_append, List.append_assoc]
      rw [hshape] at hfull
      exact hfull
    · intro x
      by_cases hxw : x = w
      · subst hxw
        simp [hwl']
      · rw [hmemiff x hxw]
        simp [hxw]

/-- Heap-level behaviour of `_add_wait_list` on an empty list: the node
is made self-linked with `in_list` set, the head points at it, and
nothing else changes. -/
theorem addWaitList_heap_empty (s : State) (w : Nat)
    (hw : s.waitList = none) :
    (addWaitList s w).waitList = some w ∧
    ((addWaitList s w).heap w).next = some w ∧
    ((addWaitList s w).heap w).prev = some w ∧
    ((addWaitList s w).heap w).inList = true ∧
    (∀ x, x ≠ w → (addWaitList s w).heap x = s.heap x) := by
  refine ⟨?_, ?_, ?_, ?_, ?_⟩
  · simp [addWaitList, hw, State.store, Function.update]
  · simp [addWaitList, hw, State.store, Function.update]
  · simp [addWaitList, hw, State.store, Function.update]
  · simp [addWaitList, hw, State.store, Function.update]
  · intro x hxw
    simp [addWaitList, hw, State.store, Function.update, hxw]

/-- Pointwise heap-level behaviour of `_add_wait_list` on a non-empty
list: the new node is linked between the old tail `last` and the head
`first` with `in_list` set, the head pointer is unchanged, and no other
`next`/`prev`/`in_list` field changes. -/
theorem addWaitList_fields (s : State) (w first last : Nat)
    (hw : s.waitList = some first) (hp : (s.heap first).prev = some last)
    (hwfst : w ≠ first) (hwlst : w ≠ last) :
    (addWaitList s w).waitList = some first ∧
    ((addWaitList s w).heap w).next = some first ∧
    ((addWaitList s w).heap w).prev = some last ∧
    ((addWaitList s w).heap w).inList = true ∧
    ((addWaitList s w).heap first).prev = some w ∧
    ((addWaitList s w).heap last).next = some w ∧
    (∀ x, x ≠ w → x ≠ last → ((addWaitList s w).heap x).next = (s.heap x).next) ∧
    (∀ y, y ≠ w → y ≠ first → ((addWaitList s w).heap y).prev = (s.heap y).prev) ∧
    (∀ x, x ≠ w → ((addWaitList s w).heap x).inList = (s.heap x).inList) := by
  have hfw : first ≠ w := Ne.symm hwfst
  have hlw : last ≠ w := Ne.symm hwlst
  by_cases hfl : first = last
  · subst hfl
    refine ⟨?_, ?_, ?_, ?_, ?_, ?_, ?_, ?_, ?_⟩
    · simp [addWaitList, hw, hp, State.store, Function.update, hwfst, hfw]
    · simp [addWaitList, hw, hp, State.store, Function.update, hwfst, hfw]
    · simp [addWaitList, hw, hp, State.store, Function.update, hwfst, hfw]
    · simp [addWaitList, hw, hp, State.store, Function.update, hwfst, hfw]
    · simp [addWaitList, hw, hp, State.store, Function.update, hwfst, hfw]
    · simp [addWaitList, hw, hp, State.store, Function.update, hwfst, hfw]
    · intro x hxw hxl
      simp [addWaitList, hw, hp, State.store, Function.update, hwfst, hfw, hxw, hxl]
    · intro y hyw hyf
      simp [addWaitList, hw, hp, State.store, Function.update, hwfst, hfw, hyw, hyf]
    · intro x hxw
      by_cases hxf : x = first
      · subst hxf
        simp [addWaitList, hw, hp, State.store, Function.update, hwfst, hfw, hxw]
      · simp [addWaitList, hw, hp, State.store, Function.update, hwfst, hfw, hxw, hxf]
  · refine ⟨?_, ?_, ?_, ?_, ?_, ?_, ?_, ?_, ?_⟩
    · simp [addWaitList, hw, hp, State.store, Function.update, hwfst, hfw, hwlst, hlw,
        hfl, Ne.symm hfl]
    · simp [addWaitList, hw, hp, State.store, Function.update, hwfst, hfw, hwlst, hlw,
        hfl, Ne.symm hfl]
    · simp [addWaitList, hw, hp, State.store, Function.update, hwfst, hfw, hwlst, hlw,
        hfl, Ne.symm hfl]
    · simp [addWaitList, hw, hp, State.store, Function.update, hwfst, hfw, hwlst, hlw,
        hfl, Ne.symm hfl]
    · simp [addWaitList, hw, hp, State.store, Function.update, hwfst, hfw, hwlst, hlw,
        hfl, Ne.symm hfl]
    · simp [addWaitList, hw, hp, State.store, Function.update, hwfst, hfw, hwlst, hlw,
        hfl, Ne.symm hfl]
    · intro x hxw hxl
      by_cases hxf : x = first
      · subst hxf
        simp [addWaitList, hw, hp, State.store, Function.update, hwfst, hfw, hwlst, hlw,
          hfl, Ne.symm hfl, hxl]
      · simp [addWaitList, hw, hp, State.store, Function.update, hwfst, hfw, hwlst, hlw,
          hfl, Ne.symm hfl, hxw, hxl, hxf]
    · intro y hyw hyf
      by_cases hyl : y = last
      · subst hyl
        simp [addWaitList, hw, hp, State.store, Function.update, hwfst, hfw, hwlst, hlw,
          hfl, Ne.symm hfl, hyf]
      · simp [addWaitList, hw, hp, State.store, Function.update, hwfst, hfw, hwlst, hlw,
          hfl, Ne.symm hfl, hyw, hyf, hyl]
    · intro x hxw
      by_cases hxf : x = first
      · subst hxf
        simp [addWaitList, hw, hp, State.store, Function.update, hwfst, hfw, hwlst, hlw,
          hfl, Ne.symm hfl]
      · by_cases hxl : x = last
        · subst hxl
          simp [addWaitList, hw, hp, State.store, Function.update, hwfst, hfw, hwlst,
            hlw, hfl, Ne.symm hfl, hxf]
        · simp [addWaitList, hw, hp, State.store, Function.update, hwfst, hfw, hwlst,
            hlw, hfl, Ne.symm hfl, hxw, hxf, hxl]

/-- `_add_wait_list` appends a not-yet-linked node at the tail of a
well-formed wait list (FIFO order preserved, the node becomes the new
tail, `in_list` is set on it). -/
theorem addWaitList_wf (s : State) (l : List Nat) (w : Nat)
    (hwf : wfList s l) (hnot : (s.heap w).inList = false) :
    wfList (addWaitList s w) (l ++ [w]) := by
  obtain ⟨hnd, hiff, hrest⟩ := hwf
  have hwmem : w ∉ l := by
    intro hc
    rw [(hiff w).mpr hc] at hnot
    simp at hnot
  rcases l with _ | ⟨h, t⟩
  · obtain ⟨f1, f2, f3, f4, f5⟩ := addWaitList_heap_empty s w hrest
    refine ⟨by simp, ?_, f1, ?_⟩
    · intro x
      by_cases hxw : x = w
      · subst hxw
        simp [f4]
      · rw [f5 x hxw, hiff x]
        simp [hxw]
    · exact List.Chain.cons ⟨f2, f3⟩ List.Chain.nil
  · obtain ⟨hhead, hchain⟩ := hrest
    rw [chain_concat] at hchain
    obtain ⟨hct, hlink⟩ := hchain
    have hwh : w ≠ h := fun hc => hwmem (hc ▸ List.mem_cons_self h t)
    have hPmem : (h :: t).getLast (List.cons_ne_nil h t) ∈ h :: t :=
      List.getLast_mem _
    have hwP : w ≠ (h :: t).getLast (List.cons_ne_nil h t) :=
      fun hc => hwmem (hc ▸ hPmem)
    obtain ⟨f1, f2, f3, f4, f5, f6, fNext, fPrev, fIn⟩ :=
      addWaitList_fields s w h _ hhead hlink.2 hwh hwP
    refine ⟨?_, ?_, f1, ?_⟩
    · rw [List.cons_append, List.nodup_cons]
      constructor
      · intro hc
        rcases List.mem_append.mp hc with hc2 | hc2
        · exact (List.nodup_cons.mp hnd).1 hc2
        · simp only [List.mem_singleton] at hc2
          exact hwh hc2.symm
      · rw [List.nodup_append]
        refine ⟨(List.nodup_cons.mp hnd).2, List.nodup_singleton w, ?_⟩
        intro x hx hx2
        simp only [List.mem_singleton] at hx2
        exact hwmem (hx2 ▸ List.mem_cons_of_mem h hx)
    · intro x
      by_cases hxw : x = w
      · subst hxw
        simp [f4, List.mem_append]
      · rw [fIn x hxw, hiff x]
        simp [List.mem_cons, List.mem_append, hxw]
    · rw [chain_concat]
      constructor
      · show List.Chain (linked (addWaitList s w)) h (t ++ [w])
        rw [chain_concat]
        constructor
        · have htrans : List.Chain' (linked (addWaitList s w)) (h :: t) := by
            refine chain_transfer s _ (h :: t) hct ?_ ?_
            · intro x hx
              refine fNext x ?_ ?_
              · exact fun hc => hwmem (hc ▸ List.mem_of_mem_dropLast hx)
              · exact fun hc =>
                  getLast_not_mem_dropLast _ (List.cons_ne_nil h t) hnd (hc ▸ hx)
            · intro y hy
              refine fPrev y ?_ ?_
              · exact fun hc => hwmem (hc ▸ List.mem_cons_of_mem h hy)
              · exact fun hc => (List.nodup_cons.mp hnd).1 (hc ▸ hy)
          exact htrans
        · exact ⟨f6, f3⟩
      · have hq : (h :: (t ++ [w])).getLast? = some w := by
          rw [show h :: (t ++ [w]) = (h :: t) ++ [w] from by simp,
            List.getLast?_concat]
        rw [List.getLast?_eq_getLast _ (List.cons_ne_nil h (t ++ [w]))] at hq
        simp only [Option.some.injEq] at hq
        show linked (addWaitList s w)
          ((h :: (t ++ [w])).getLast (List.cons_ne_nil h (t ++ [w]))) h
        rw [hq]
        exact ⟨f2, f5⟩

/-- The `wait`/`wait_for` return path (re-enter the critical section,
call `_remove_wait_list` iff `in_list` is still set) always leaves a
well-formed wait list no longer containing the caller's node — whether
or not a concurrent `notify_one`/`notify_all` already unlinked it. -/
theorem waitForExit_wf (s : State) (l : List Nat) (w : Nat)
    (hwf : wfList s l) :
    ∃ l', wfList (waitForExit s w) l' ∧ w ∉ l' ∧
      (∀ x, x ∈ l' ↔ x ∈ l ∧ x ≠ w) := by
  obtain ⟨hnd, hiff, hrest⟩ := hwf
  by_cases hin : (s.heap w).inList = true
  · have hwmem : w ∈ l := (hiff w).mp hin
    have hfe : waitForExit s w = removeWaitList s w := by
      simp [waitForExit, hin]
    rw [hfe]
    exact removeWaitList_wf s l w ⟨hnd, hiff, hrest⟩ hwmem
  · have hwmem : w ∉ l := fun hc => hin ((hiff w).mpr hc)
    have hin2 : (s.heap w).inList = false := by
      rw [Bool.not_eq_true] at hin
      exact hin
    have hfe : waitForExit s w = s := by
      simp [waitForExit, hin2]
    rw [hfe]
    refine ⟨l, ⟨hnd, hiff, hrest⟩, hwmem, ?_⟩
    intro x
    exact ⟨fun hx => ⟨hx, fun hc => hwmem (hc ▸ hx)⟩, fun hx => hx.1⟩

/-- The concrete two-waiter state is well-formed with wait list
`[1, 2]`. -/
theorem twoWaiterState_wf : wfList twoWaiterState [1, 2] := by
  refine ⟨by decide, ?_, by decide, ?_⟩
  · intro x
    by_cases h1 : x = 1
    · subst h1
      decide
    · by_cases h2 : x = 2
      · subst h2
        decide
      · simp [twoWaiterState, Waiter.fresh, h1, h2]
  · exact List.Chain.cons ⟨rfl, rfl⟩ (List.Chain.cons ⟨rfl, rfl⟩ List.Chain.nil)

/-- C9: Waiter-node invariant (RTOS variant). For a well-formed wait
list `l` of one `ConditionVariableCS`: `in_list` is true exactly on the
linked nodes and each node appears at most once; `_add_wait_list` links
a node whose `in_list` is false at the tail, preserving
well-formedness; and the `wait`/`wait_for` return path (re-enter the
critical section, unlink iff `in_list` is still set) always leaves a
well-formed list from which the caller's stack node is gone — also when
a concurrent `notify_one` already unlinked it, in which case `in_list`
is false and the epilogue leaves the list untouched. -/
theorem waiter_node_unlink_invariant (s : State) (l : List Nat) (w : Nat)
    (hwf : wfList s l) :
    ((∀ x, (s.heap x).inList = true ↔ x ∈ l) ∧ l.Nodup) ∧
    ((s.heap w).inList = false → wfList (addWaitList s w) (l ++ [w])) ∧
    (∃ l', wfList (waitForExit s w) l' ∧ w ∉ l' ∧
      (∀ x, x ∈ l' ↔ x ∈ l ∧ x ≠ w)) := by
  obtain ⟨hnd, hiff, hrest⟩ := hwf
  refine ⟨⟨hiff, hnd⟩, ?_, ?_⟩
  · intro hnot
    exact addWaitList_wf s l w ⟨hnd, hiff, hrest⟩ hnot
  · exact waitForExit_wf s l w ⟨hnd, hiff, hrest⟩

/-- Closed instance of the waiter-node invariant at the two-waiter
state: node 1 leaving through the `wait_for` epilogue is no longer on
the list, and a fresh node 3 joining is linked at the tail. -/
theorem waiter_node_unlink_invariant_witness :
    wfList twoWaiterState [1, 2] ∧
    (∃ l', wfList (waitForExit twoWaiterState 1) l' ∧ 1 ∉ l' ∧
      (∀ x, x ∈ l' ↔ x ∈ ([1, 2] : List Nat) ∧ x ≠ 1)) ∧
    wfList (addWaitList twoWaiterState 3) ([1, 2] ++ [3]) :=
  ⟨twoWaiterState_wf,
   (waiter_node_unlink_invariant twoWaiterState [1, 2] 1 twoWaiterState_wf).2.2,
   (waiter_node_unlink_invariant twoWaiterState [1, 2] 3 twoWaiterState_wf).2.1
     (by decide)⟩

end CVCS
